import Mathlib

/-!
Verification development for the annotation parsing and indexing engine of a
WoW API documentation server. The JavaScript source (data-store.mjs and the
parser module) is shallowly embedded: JS strings become Lean `String`s
(manipulated as `List Char`; case mapping is modelled on ASCII, which covers
the whole corpus), JS `Map`s and plain objects become insertion-ordered
association lists, regular-expression matches become hand-rolled character
scanners that reproduce the anchored-greedy behaviour of each concrete
pattern, and the filesystem walk is abstracted into a `Corpus` record holding
the lines of every file each load pass reads.
-/

/-- Word characters of the JS regex class backslash-w: ASCII letters, digits
and underscore. -/
def isWordChar (c : Char) : Bool :=
  c.isAlphanum || c == '_'

/-- Whitespace characters of the JS regex class backslash-s, restricted to the
ASCII whitespace actually present in the corpus. -/
def isSpaceChar (c : Char) : Bool :=
  c == ' ' || c == '\t' || c == '\n' || c == '\r'

/-- Decimal digit test, matching the JS regex class backslash-d. -/
def isDigitChar (c : Char) : Bool :=
  c.isDigit

/-- Hexadecimal digit test for the flavor table's 0x literals. -/
def isHexDigitCh (c : Char) : Bool :=
  c.isDigit || ('a' ≤ c && c ≤ 'f') || ('A' ≤ c && c ≤ 'F')

/-- Match a literal character sequence at the head of the input, returning the
remainder on success. -/
def stripLead : List Char → List Char → Option (List Char)
  | [], cs => some cs
  | _ :: _, [] => none
  | l :: ls, c :: cs => if l == c then stripLead ls cs else none

/-- Boolean test that `lit` occurs at the head of `cs`. -/
def leadsWith (lit : List Char) (cs : List Char) : Bool :=
  (stripLead lit cs).isSome

/-- String form of `leadsWith`: models JS `String.prototype.startsWith`. -/
def strStarts (s lit : String) : Bool :=
  leadsWith lit.toList s.toList

/-- Substring occurrence test on character lists: models JS
`String.prototype.includes` (pattern second). -/
def containsSeq : List Char → List Char → Bool
  | t, p => if leadsWith p t then true else
      match t with
      | [] => false
      | _ :: ts => containsSeq ts p

/-- String form of `containsSeq`: `containsStr hay pat` is JS
`hay.includes(pat)`. -/
def containsStr (hay pat : String) : Bool :=
  containsSeq hay.toList pat.toList

/-- Expect one specific character at the head of the input. -/
def expectChar (c : Char) : List Char → Option (List Char)
  | [] => none
  | x :: xs => if x == c then some xs else none

/-- Take the maximal (greedy) run of characters satisfying `p`, requiring it to
be non-empty, as for a `+`-quantified regex character class. -/
def takeRun1 (p : Char → Bool) (cs : List Char) : Option (List Char × List Char) :=
  match cs.takeWhile p with
  | [] => none
  | r => some (r, cs.dropWhile p)

/-- Require at least one whitespace character and skip the maximal run, as for
the regex `\s+`. -/
def skipRun1 (p : Char → Bool) (cs : List Char) : Option (List Char) :=
  match cs with
  | [] => none
  | c :: _ => if p c then some (cs.dropWhile p) else none

/-- Trim ASCII whitespace from both ends of a character list. -/
def trimChars (cs : List Char) : List Char :=
  ((cs.dropWhile isSpaceChar).reverse.dropWhile isSpaceChar).reverse

/-- Model of JS `String.prototype.trim` on the corpus's ASCII content. -/
def jsTrim (s : String) : String :=
  String.mk (trimChars s.toList)

/-- Model of JS `String.prototype.toLowerCase` on ASCII content. -/
def jsToLower (s : String) : String :=
  String.mk (s.toList.map Char.toLower)

/-- Model of JS `String.prototype.toUpperCase` on ASCII content. -/
def jsToUpper (s : String) : String :=
  String.mk (s.toList.map Char.toUpper)

/-- Join strings with single spaces: models `Array.prototype.join(' ')`. -/
def joinSpace : List String → String
  | [] => ""
  | [s] => s
  | s :: rest => s ++ " " ++ joinSpace rest

/-- Split a string at commas: models `String.prototype.split(',')`. -/
def splitCommaAux : List Char → List Char → List String
  | acc, [] => [String.mk acc.reverse]
  | acc, c :: cs =>
      if c == ',' then String.mk acc.reverse :: splitCommaAux [] cs
      else splitCommaAux (c :: acc) cs

/-- Split a string on the comma separator, keeping empty pieces, as JS does. -/
def splitOnComma (s : String) : List String :=
  splitCommaAux [] s.toList

/-- Decimal digit-run value, as produced by JS `parseInt` on a digit string. -/
def digitsToNat (ds : List Char) : Nat :=
  ds.foldl (fun n c => n * 10 + (c.toNat - 48)) 0

/-- Hexadecimal digit-run value, as produced by JS `parseInt` on an 0x
literal's digits. -/
def hexDigitVal (c : Char) : Nat :=
  if c.isDigit then c.toNat - 48
  else if 'a' ≤ c && c ≤ 'f' then c.toNat - 87
  else c.toNat - 55

/-- Value of a hexadecimal digit run. -/
def hexToNat (ds : List Char) : Nat :=
  ds.foldl (fun n c => n * 16 + hexDigitVal c) 0

/-- Association-list lookup modelling JS `Map.prototype.get` and object
indexing: the value at the first matching key, if any. -/
def mapGet {β : Type} (m : List (String × β)) (k : String) : Option β :=
  match m.find? (fun p => p.1 == k) with
  | some p => some p.2
  | none => none

/-- Key-presence test modelling JS `Map.prototype.has`. -/
def mapHas {β : Type} (m : List (String × β)) (k : String) : Bool :=
  (mapGet m k).isSome

/-- Insertion-ordered update modelling JS `Map.prototype.set` and object key
assignment: replace the binding in place when the key exists, append a new
binding otherwise. -/
def mapSet {β : Type} : List (String × β) → String → β → List (String × β)
  | [], k, v => [(k, v)]
  | p :: m, k, v => if p.1 == k then (k, v) :: m else p :: mapSet m k v

/-- Set-insertion modelling JS `Set.prototype.add` on a list kept
duplicate-free. -/
def setAdd (l : List String) (x : String) : List String :=
  if l.contains x then l else l ++ [x]

/-- JS truthiness for an optional string field: `null`/absent and the empty
string are falsy. -/
def optStrTruthy : Option String → Bool
  | none => false
  | some s => s != ""

/-- Parameter entry of a function record, produced from an `@param` line. -/
structure Param where
  name : String
  optional : Bool
  type : String
  description : Option String
deriving Repr, DecidableEq

/-- Return entry of a function record, produced from an `@return` line. -/
structure Ret where
  type : String
  name : Option String
  description : Option String
deriving Repr, DecidableEq

/-- Structured content of one accumulated doc-comment block, as produced by
the source's `parseAnnotationBlock` (whose second, unused argument is
dropped). -/
structure AnnData where
  deprecated : Bool
  replacedBy : Option String
  replacedByUrl : Option String
  wikiUrl : Option String
  description : Option String
  params : List Param
  returns : List Ret
deriving Repr, DecidableEq

/-- Identity fields extracted from a `function ... end` declaration line. -/
structure FuncSig where
  fullName : String
  nspace : Option String
  name : String
  args : String
  isMethod : Bool
deriving Repr, DecidableEq

/-- A function record of the unified index. The JS objects are duck-typed;
optional fields absent on some records are modelled as `Option` with `none`
for absence. The source field `namespace` is renamed `nspace` because
`namespace` is a Lean keyword; the JS value `""` (from a dotless split) is
`some ""`, which the truthiness helper treats as falsy exactly like JS. -/
structure FuncRec where
  fullName : String
  nspace : Option String
  name : String
  args : String
  isMethod : Bool
  deprecated : Bool := false
  replacedBy : Option String := none
  replacedByUrl : Option String := none
  wikiUrl : Option String := none
  description : Option String := none
  params : List Param := []
  returns : List Ret := []
  deprecatedInPatch : Option String := none
  gameVersions : List String := []
  source : Option String := none
deriving Repr, DecidableEq

/-- Field entry of a class declaration, from an `@field` line. -/
structure FieldDef where
  name : String
  optional : Bool
  type : String
  description : Option String
deriving Repr, DecidableEq

/-- A widget/class declaration record. -/
structure ClassDef where
  name : String
  inherits : List String
  fields : List FieldDef
  wikiUrl : Option String
deriving Repr, DecidableEq

/-- Event record from Event.lua. -/
structure EventRec where
  name : String
  payload : Option String
deriving Repr, DecidableEq

/-- Strip the leading `---` marker and at most one following whitespace
character: models `line.replace(/^---\s?/, '')`. -/
def stripAnnotMarker (line : String) : String :=
  match stripLead "---".toList line.toList with
  | some rest =>
      String.mk (match rest with
        | c :: cs => if isSpaceChar c then cs else rest
        | [] => [])
  | none => line

/-- Match `^Deprecated by \[([^\]]+)\]\(([^)]+)\)`, returning the replacement
name and URL captures. -/
def matchDeprecBy (text : String) : Option (String × String) := do
  let cs ← stripLead "Deprecated by [".toList text.toList
  let (nm, cs) ← takeRun1 (fun c => c != ']') cs
  let cs ← stripLead "](".toList cs
  let (url, cs) ← takeRun1 (fun c => c != ')') cs
  let _ ← expectChar ')' cs
  some (String.mk nm, String.mk url)

/-- Match `^\[Documentation\]\(([^)]+)\)`, returning the URL capture. -/
def matchDocLink (text : String) : Option String := do
  let cs ← stripLead "[Documentation](".toList text.toList
  let (url, cs) ← takeRun1 (fun c => c != ')') cs
  let _ ← expectChar ')' cs
  some (String.mk url)

/-- Match `^@param\s+(\w+)(\?)?\s+(\S+)\s*(.*)?$`; an empty trailing capture
becomes an absent description, as `match[4] || null` does. -/
def matchParam (text : String) : Option Param := do
  let cs ← stripLead "@param".toList text.toList
  let cs ← skipRun1 isSpaceChar cs
  let (nm, cs) ← takeRun1 isWordChar cs
  let (opt, cs) := match cs with
    | '?' :: rest => (true, rest)
    | _ => (false, cs)
  let cs ← skipRun1 isSpaceChar cs
  let (ty, cs) ← takeRun1 (fun c => !isSpaceChar c) cs
  let rest := cs.dropWhile isSpaceChar
  some { name := String.mk nm, optional := opt, type := String.mk ty,
         description := if rest.isEmpty then none else some (String.mk rest) }

/-- Match `^@return\s+(\S+)\s*(\w+)?\s*(.*)?$`; empty name and description
captures become absent, as the `|| null` coercions do. -/
def matchReturn (text : String) : Option Ret := do
  let cs ← stripLead "@return".toList text.toList
  let cs ← skipRun1 isSpaceChar cs
  let (ty, cs) ← takeRun1 (fun c => !isSpaceChar c) cs
  let cs1 := cs.dropWhile isSpaceChar
  let nm := cs1.takeWhile isWordChar
  let cs2 := cs1.dropWhile isWordChar
  let rest := cs2.dropWhile isSpaceChar
  some { type := String.mk ty,
         name := if nm.isEmpty then none else some (String.mk nm),
         description := if rest.isEmpty then none else some (String.mk rest) }

/-- One step of the annotation-block scan: classify a (trimmed) comment line
in the source's precedence order, threading the record under construction and
the pending description pieces. -/
def annotStep (acc : AnnData × List String) (line : String) : AnnData × List String :=
  let r := acc.1
  let descParts := acc.2
  let text := stripAnnotMarker line
  if text == "@deprecated" then ({ r with deprecated := true }, descParts)
  else match matchDeprecBy text with
  | some pr => ({ r with replacedBy := some pr.1, replacedByUrl := some pr.2 }, descParts)
  | none => match matchDocLink text with
    | some url => ({ r with wikiUrl := some url }, descParts)
    | none => match matchParam text with
      | some p => ({ r with params := r.params ++ [p] }, descParts)
      | none => match matchReturn text with
        | some rt => ({ r with returns := r.returns ++ [rt] }, descParts)
        | none =>
          if strStarts text "@" || strStarts text "#" then (r, descParts)
          else if jsTrim text == "" then (r, descParts)
          else (r, descParts ++ [jsTrim text])

/-- The empty annotation record the scan starts from. -/
def annInit : AnnData :=
  { deprecated := false, replacedBy := none, replacedByUrl := none,
    wikiUrl := none, description := none, params := [], returns := [] }

/-- Parse one accumulated doc-comment block: models `parseAnnotationBlock`
(the source also receives the following declaration line but never uses it). -/
def parseAnnotBlock (lines : List String) : AnnData :=
  let st := lines.foldl annotStep (annInit, [])
  { st.1 with description := if st.2.isEmpty then none else some (joinSpace st.2) }

/-- Split a qualified name at its last dot, if any: models
`fullName.lastIndexOf('.')` followed by the two `substring` calls. -/
def lastDotSplit (s : String) : Option (String × String) :=
  let cs := s.toList
  if cs.contains '.' then
    let rev := cs.reverse
    let after := rev.takeWhile (fun c => c != '.')
    let before := rev.dropWhile (fun c => c != '.')
    some (String.mk (before.drop 1).reverse, String.mk after.reverse)
  else none

/-- Parse a function declaration line: the namespaced form
`^function\s+([\w.]+)\s*\(([^)]*)\)\s*end$` first, then the method form
`^function\s+([\w.]+):([\w]+)\s*\(([^)]*)\)\s*end$`. -/
def parseFunctionLine (line : String) : Option FuncSig :=
  let cs0 := line.toList
  let nsForm : Option (String × String) := do
    let cs ← stripLead "function".toList cs0
    let cs ← skipRun1 isSpaceChar cs
    let (fn, cs) ← takeRun1 (fun c => isWordChar c || c == '.') cs
    let cs := cs.dropWhile isSpaceChar
    let cs ← expectChar '(' cs
    let args := cs.takeWhile (fun c => c != ')')
    let cs := cs.dropWhile (fun c => c != ')')
    let cs ← expectChar ')' cs
    let cs := cs.dropWhile isSpaceChar
    let cs ← stripLead "end".toList cs
    if cs.isEmpty then some (String.mk fn, String.mk args) else none
  match nsForm with
  | some pr =>
      match lastDotSplit pr.1 with
      | some nspr => some { fullName := pr.1, nspace := some nspr.1,
                            name := nspr.2, args := pr.2, isMethod := false }
      | none => some { fullName := pr.1, nspace := none, name := pr.1,
                       args := pr.2, isMethod := false }
  | none =>
    let mForm : Option (String × String × String) := do
      let cs ← stripLead "function".toList cs0
      let cs ← skipRun1 isSpaceChar cs
      let (ow, cs) ← takeRun1 (fun c => isWordChar c || c == '.') cs
      let cs ← expectChar ':' cs
      let (mn, cs) ← takeRun1 isWordChar cs
      let cs := cs.dropWhile isSpaceChar
      let cs ← expectChar '(' cs
      let args := cs.takeWhile (fun c => c != ')')
      let cs := cs.dropWhile (fun c => c != ')')
      let cs ← expectChar ')' cs
      let cs := cs.dropWhile isSpaceChar
      let cs ← stripLead "end".toList cs
      if cs.isEmpty then some (String.mk ow, String.mk mn, String.mk args) else none
    match mForm with
    | some tr => some { fullName := tr.1 ++ ":" ++ tr.2.1, nspace := some tr.1,
                        name := tr.2.1, args := tr.2.2, isMethod := true }
    | none => none

/-- Build the resulting function record from a declaration's identity fields
and its annotation block: models the JS spread `{ ...funcInfo, ...annotation }`
(the two field sets are disjoint). -/
def mkFuncRec (sig : FuncSig) (ann : AnnData) : FuncRec :=
  { fullName := sig.fullName, nspace := sig.nspace, name := sig.name,
    args := sig.args, isMethod := sig.isMethod, deprecated := ann.deprecated,
    replacedBy := ann.replacedBy, replacedByUrl := ann.replacedByUrl,
    wikiUrl := ann.wikiUrl, description := ann.description,
    params := ann.params, returns := ann.returns }

/-- Match the class head `^---@class\s+([\w.]+)(?:\s*:\s*([\w.,\s]+))?` on a
stored annotation line, returning the name and the comma-split, trimmed parent
list (empty when the optional group does not participate). The optional
group's backtracking is reproduced: when nothing matchable follows the colon's
trailing whitespace, the greedy `\s*` gives one space back so the capture
becomes a single space, provided such whitespace exists. -/
def matchInheritsSuffix (cs : List Char) : Option String :=
  match cs.dropWhile isSpaceChar with
  | ':' :: rest =>
      let w2 := rest.takeWhile isSpaceChar
      let body := rest.dropWhile isSpaceChar
      let cap := body.takeWhile (fun c => isWordChar c || c == '.' || c == ',' || isSpaceChar c)
      if !cap.isEmpty then some (String.mk cap)
      else if !w2.isEmpty then some " "
      else none
  | _ => none

/-- Match a `---@class` annotation line, giving the class name and parsed
parent list. -/
def matchClassLine (aLine : String) : Option (String × List String) := do
  let cs ← stripLead "---@class".toList aLine.toList
  let cs ← skipRun1 isSpaceChar cs
  let (nm, cs) ← takeRun1 (fun c => isWordChar c || c == '.') cs
  let inherits :=
    match matchInheritsSuffix cs with
    | some cap => (splitOnComma cap).map (fun s => jsTrim s)
    | none => []
  some (String.mk nm, inherits)

/-- Match `^---@field\s+(\w+)(\?)?\s+(\S+)\s*(.*)?$` on a stored annotation
line. -/
def matchFieldLine (aLine : String) : Option FieldDef := do
  let cs ← stripLead "---@field".toList aLine.toList
  let cs ← skipRun1 isSpaceChar cs
  let (nm, cs) ← takeRun1 isWordChar cs
  let (opt, cs) := match cs with
    | '?' :: rest => (true, rest)
    | _ => (false, cs)
  let cs ← skipRun1 isSpaceChar cs
  let (ty, cs) ← takeRun1 (fun c => !isSpaceChar c) cs
  let rest := cs.dropWhile isSpaceChar
  some { name := String.mk nm, optional := opt, type := String.mk ty,
         description := if rest.isEmpty then none else some (String.mk rest) }

/-- Match `^---\[Documentation\]\(([^)]+)\)` on a stored annotation line. -/
def matchClassDoc (aLine : String) : Option String := do
  let cs ← stripLead "---[Documentation](".toList aLine.toList
  let (url, cs) ← takeRun1 (fun c => c != ')') cs
  let _ ← expectChar ')' cs
  some (String.mk url)

/-- Build one class record: fields are gathered in order from the whole
annotation block, and the last documentation-link line wins, exactly as the
source's sequential overwrite does. -/
def buildClassDef (ann : List String) (nm : String) (inh : List String) : ClassDef :=
  { name := nm, inherits := inh,
    fields := ann.filterMap matchFieldLine,
    wikiUrl := (ann.filterMap matchClassDoc).getLast? }

/-- All class records recognized in one pending annotation block, one per
`---@class` line, each carrying the whole block's fields. -/
def classesFromBlock (ann : List String) : List ClassDef :=
  ann.filterMap (fun aLine => (matchClassLine aLine).map (fun pr => buildClassDef ann pr.1 pr.2))

/-- Scanner state of `parseLuaFile`: the records produced so far plus the
pending accumulated annotation lines. -/
structure LuaParseState where
  functions : List FuncRec
  classes : List ClassDef
  annotationLines : List String
deriving Repr, DecidableEq

/-- Result of parsing one annotation file (`enums` is declared but never
filled by the source, and stays empty here too). -/
structure LuaParseResult where
  functions : List FuncRec
  classes : List ClassDef
  enums : List (String × List (String × Nat))
deriving Repr, DecidableEq

/-- One line of the `parseLuaFile` scan. Annotation lines accumulate; a line
starting with `function ` consumes the block into a function record (or, on a
malformed signature, just drops the block); any other line triggers the class
check over the pending block and then clears it. -/
def parseLuaStep (st : LuaParseState) (rawLine : String) : LuaParseState :=
  if strStarts (jsTrim rawLine) "---" then
    { st with annotationLines := st.annotationLines ++ [jsTrim rawLine] }
  else if strStarts (jsTrim rawLine) "function " then
    match parseFunctionLine (jsTrim rawLine) with
    | some sig =>
        { st with
          functions := st.functions ++ [mkFuncRec sig (parseAnnotBlock st.annotationLines)],
          annotationLines := [] }
    | none => { st with annotationLines := [] }
  else
    { st with classes := st.classes ++ classesFromBlock st.annotationLines,
              annotationLines := [] }

/-- Parse one annotation file, given its lines (the source reads the file and
splits on newlines; that I/O is abstracted away). -/
def parseLuaFile (lines : List String) : LuaParseResult :=
  let st := lines.foldl parseLuaStep { functions := [], classes := [], annotationLines := [] }
  { functions := st.functions, classes := st.classes, enums := [] }

/-- Scanner state of the enum-file parser. -/
structure EnumParseState where
  currentEnum : Option String
  currentValues : List (String × Nat)
  enums : List (String × List (String × Nat))
deriving Repr, DecidableEq

/-- Match `^---@enum\s+([\w.]+)` on a trimmed line. -/
def matchEnumStart (line : String) : Option String := do
  let cs ← stripLead "---@enum".toList line.toList
  let cs ← skipRun1 isSpaceChar cs
  let (nm, _) ← takeRun1 (fun c => isWordChar c || c == '.') cs
  some (String.mk nm)

/-- Match the enum opening line `^[\w.]+ = \x7b$` (a name, the literal
space-equals-space, and an opening brace ending the line). -/
def matchOpenBrace (line : String) : Bool :=
  (do
    let (_, cs) ← takeRun1 (fun c => isWordChar c || c == '.') line.toList
    let cs ← stripLead " = \x7b".toList cs
    if cs.isEmpty then some () else none).isSome

/-- Match an enum member line `^(\w+)\s*=\s*(\d+),?$`. -/
def matchEnumKV (line : String) : Option (String × Nat) := do
  let (k, cs) ← takeRun1 isWordChar line.toList
  let cs := cs.dropWhile isSpaceChar
  let cs ← expectChar '=' cs
  let cs := cs.dropWhile isSpaceChar
  let (ds, cs) ← takeRun1 isDigitChar cs
  let cs := match cs with
    | ',' :: rest => rest
    | _ => cs
  if cs.isEmpty then some (String.mk k, digitsToNat ds) else none

/-- One line of the enum-file scan, mirroring the source's order of checks:
an `@enum` header always (re)opens a capture, then the opening brace is
skipped, a closing brace commits, and member lines accumulate. -/
def parseEnumStep (st : EnumParseState) (rawLine : String) : EnumParseState :=
  let line := jsTrim rawLine
  match matchEnumStart line with
  | some nm => { st with currentEnum := some nm, currentValues := [] }
  | none =>
    match st.currentEnum with
    | none => st
    | some nm =>
      if matchOpenBrace line then st
      else if line == "\x7d" then
        { currentEnum := none, currentValues := [],
          enums := mapSet st.enums nm st.currentValues }
      else match matchEnumKV line with
        | some kv => { st with currentValues := mapSet st.currentValues kv.1 kv.2 }
        | none => st

/-- Parse Enum.lua, given its lines. -/
def parseEnumFile (lines : List String) : List (String × List (String × Nat)) :=
  (lines.foldl parseEnumStep { currentEnum := none, currentValues := [], enums := [] }).enums

/-- Match an event line `^\s*---\|"([^"]+)"(?:\s*#\s*<tick>([^<tick>]*)<tick>)?`
(angle-bracket tick standing for the backtick delimiter); an empty payload
capture becomes absent, as `match[2] || null` does. -/
def matchEventLine (rawLine : String) : Option (String × Option String) := do
  let cs := rawLine.toList.dropWhile isSpaceChar
  let cs ← stripLead "---|\"".toList cs
  let (nm, cs) ← takeRun1 (fun c => c != '"') cs
  let cs ← expectChar '"' cs
  let payload :=
    match (do
      let cs := cs.dropWhile isSpaceChar
      let cs ← expectChar '#' cs
      let cs := cs.dropWhile isSpaceChar
      let cs ← expectChar '\x60' cs
      let p := cs.takeWhile (fun c => c != '\x60')
      let cs := cs.dropWhile (fun c => c != '\x60')
      let _ ← expectChar '\x60' cs
      some (String.mk p)) with
    | some p => if p == "" then none else some p
    | none => none
  some (String.mk nm, payload)

/-- Parse Event.lua, given its lines. -/
def parseEventFile (lines : List String) : List (String × EventRec) :=
  lines.foldl (fun evs l =>
    match matchEventLine l with
    | some pr => mapSet evs pr.1 { name := pr.1, payload := pr.2 }
    | none => evs) []

/-- Match a CVar line `^\s*---\|"([^"]+)"`. -/
def matchCVarLine (rawLine : String) : Option String := do
  let cs := rawLine.toList.dropWhile isSpaceChar
  let cs ← stripLead "---|\"".toList cs
  let (nm, cs) ← takeRun1 (fun c => c != '"') cs
  let _ ← expectChar '"' cs
  some (String.mk nm)

/-- Parse CVar.lua, given its lines. -/
def parseCVarFile (lines : List String) : List String :=
  lines.foldl (fun acc l =>
    match matchCVarLine l with
    | some nm => acc ++ [nm]
    | none => acc) []

/-- Decode a flavor bitmask into game version strings: bit 0 is Mainline,
bit 1 Vanilla, bit 2 Mists; higher bits contribute nothing. -/
def decodeFlavorBitmask (bitmask : Nat) : List String :=
  let versions : List String := []
  let versions := if bitmask &&& 0x1 != 0 then versions ++ ["Mainline"] else versions
  let versions := if bitmask &&& 0x2 != 0 then versions ++ ["Vanilla"] else versions
  if bitmask &&& 0x4 != 0 then versions ++ ["Mists"] else versions

/-- Try the flavor entry pattern `\["([^"]+)"\]\s*:\s*(0x[0-9a-fA-F]+|\d+)` at
the current position, returning the captures and the remainder after the
match. -/
def tryFlavorAt (cs : List Char) : Option (String × Nat × List Char) := do
  let cs ← expectChar '[' cs
  let cs ← expectChar '"' cs
  let (nm, cs) ← takeRun1 (fun c => c != '"') cs
  let cs ← expectChar '"' cs
  let cs ← expectChar ']' cs
  let cs := cs.dropWhile isSpaceChar
  let cs ← expectChar ':' cs
  let cs := cs.dropWhile isSpaceChar
  match (do
    let cs2 ← stripLead "0x".toList cs
    takeRun1 isHexDigitCh cs2) with
  | some pr => some (String.mk nm, hexToNat pr.1, pr.2)
  | none => do
    let (ds, cs2) ← takeRun1 isDigitChar cs
    some (String.mk nm, digitsToNat ds, cs2)

/-- Global scan for flavor entries, fuelled by the input length: a successful
match resumes after its end, a failure advances one character, exactly as a
global regex `exec` loop does. -/
def scanFlavorAux : Nat → List Char → List (String × Nat)
  | 0, _ => []
  | _, [] => []
  | fuel + 1, c :: rest =>
    match tryFlavorAt (c :: rest) with
    | some tr => (tr.1, tr.2.1) :: scanFlavorAux fuel tr.2.2
    | none => scanFlavorAux fuel rest

/-- Parse flavor.js content into the name-to-version-tags map. -/
def parseFlavorFile (content : String) : List (String × List String) :=
  (scanFlavorAux content.length content.toList).foldl
    (fun m pr => mapSet m pr.1 (decodeFlavorBitmask pr.2)) []

/-- Try a quoted-string match `"([^"]+)"` at the current position. -/
def tryQuoteAt (cs : List Char) : Option (String × List Char) := do
  let cs ← expectChar '"' cs
  let (nm, cs) ← takeRun1 (fun c => c != '"') cs
  let cs ← expectChar '"' cs
  some (String.mk nm, cs)

/-- Global scan for quoted strings, fuelled by the input length. -/
def scanQuotesAux : Nat → List Char → List String
  | 0, _ => []
  | _, [] => []
  | fuel + 1, c :: rest =>
    match tryQuoteAt (c :: rest) with
    | some pr => pr.1 :: scanQuotesAux fuel pr.2
    | none => scanQuotesAux fuel rest

/-- Parse deprecated.js content into the deprecated-name list, excluding the
two module-scaffolding strings. -/
def parseDeprecatedFile (content : String) : List String :=
  (scanQuotesAux content.length content.toList).filter
    (fun nm => nm != "__esModule" && nm != "use strict")

/-- Try the patch pattern `Deprecated_(\d+)_(\d+)_(\d+)` at the current
position. -/
def tryPatchAt (cs : List Char) : Option String := do
  let cs ← stripLead "Deprecated_".toList cs
  let (d1, cs) ← takeRun1 isDigitChar cs
  let cs ← expectChar '_' cs
  let (d2, cs) ← takeRun1 isDigitChar cs
  let cs ← expectChar '_' cs
  let (d3, _) ← takeRun1 isDigitChar cs
  some (String.mk d1 ++ "." ++ String.mk d2 ++ "." ++ String.mk d3)

/-- Leftmost-match search for the patch pattern. -/
def extractPatchAux : List Char → Option String
  | [] => none
  | c :: rest =>
    match tryPatchAt (c :: rest) with
    | some s => some s
    | none => extractPatchAux rest

/-- Extract a deprecation patch version from a filename such as
Deprecated_11_0_5.lua, as dot-joined capture groups; absent when the pattern
does not occur. -/
def extractPatchFromFilename (filename : String) : Option String :=
  extractPatchAux filename.toList

/-- A widget-table entry: the class declaration (absent when only methods have
been registered) plus the accumulated method list. -/
structure WidgetEntry where
  classInfo : Option ClassDef
  methods : List FuncRec
deriving Repr, DecidableEq

/-- The in-memory index. JS `Map`s and plain objects become insertion-ordered
association lists; the deprecated-name `Set` becomes a duplicate-free list.
Records are stored by value: the JS aliasing between `functions` and the
`namespaces`/`widgets` arrays is not observable through any field those
collections are queried for after load. -/
structure DataStore where
  functions : List (String × FuncRec)
  namespaces : List (String × List FuncRec)
  widgets : List (String × WidgetEntry)
  enums : List (String × List (String × Nat))
  events : List (String × EventRec)
  cvars : List String
  deprecatedList : List String
  flavorMap : List (String × List String)
  extensionVersion : Option String
deriving Repr, DecidableEq

/-- The store as built by the constructor: every collection empty. -/
def newStore : DataStore :=
  { functions := [], namespaces := [], widgets := [], enums := [], events := [],
    cvars := [], deprecatedList := [], flavorMap := [], extensionVersion := none }

/-- The file contents the load pass reads, with the filesystem walk already
performed: each field holds the split lines (or raw content, for the two
regex-scanned side files) of the files a pass iterates, in walk order. An
absent optional file models a failing `existsSync` check. -/
structure Corpus where
  pkgVersion : Option String
  flavorFile : Option String
  deprecatedFile : Option String
  blizzFiles : List (List String)
  deprecatedDirFiles : List (String × List String)
  wikiFile : Option (List String)
  widgetFiles : List (List String)
  frameXmlFiles : List (List String)
  enumFile : Option (List String)
  eventFile : Option (List String)
  cvarFile : Option (List String)
deriving Repr, DecidableEq

/-- A parsed record as `_indexFunction` stores it: the provenance tag is set
(the parser leaves `gameVersions` already empty, matching the JS
default-to-empty assignment). -/
def indexedCopy (f : FuncRec) (src : String) : FuncRec :=
  { f with source := some src }

/-- Model of `DataStore._indexFunction`: store under the qualified name, and
additionally push into the namespace table when the record has a truthy
namespace and is not a method. -/
def nsPush (m : List (String × List FuncRec)) (ns : String) (f : FuncRec) :
    List (String × List FuncRec) :=
  if mapHas m ns then m.map (fun p => if p.1 == ns then (p.1, p.2 ++ [f]) else p)
  else m ++ [(ns, [f])]

/-- Model of `DataStore._indexFunction` continued: store under the qualified
name, then push into the namespace table when the record has a truthy
namespace and is not a method. -/
def indexFunction (s : DataStore) (f0 : FuncRec) (src : String) : DataStore :=
  match (indexedCopy f0 src).nspace with
  | some ns =>
      if ns != "" && !(indexedCopy f0 src).isMethod then
        { s with functions := mapSet s.functions (indexedCopy f0 src).fullName (indexedCopy f0 src),
                 namespaces := nsPush s.namespaces ns (indexedCopy f0 src) }
      else { s with functions := mapSet s.functions (indexedCopy f0 src).fullName (indexedCopy f0 src) }
  | none => { s with functions := mapSet s.functions (indexedCopy f0 src).fullName (indexedCopy f0 src) }

/-- Model of `DataStore._indexClass`: create the widget entry or update its
class info in place, never clearing accumulated methods. -/
def indexClass (s : DataStore) (cls : ClassDef) : DataStore :=
  match mapGet s.widgets cls.name with
  | some w => { s with widgets := mapSet s.widgets cls.name { w with classInfo := some cls } }
  | none => { s with widgets := mapSet s.widgets cls.name { classInfo := some cls, methods := [] } }

/-- One file of the primary (Blizzard) documentation pass: functions first,
then classes, as the source iterates. -/
def stepBlizzFile (s : DataStore) (file : List String) : DataStore :=
  ((parseLuaFile file).classes).foldl indexClass
    (((parseLuaFile file).functions).foldl (fun s f => indexFunction s f "blizzard") s)

/-- One file of the deprecated-API pass: every function is forced deprecated
and stamped with the patch version extracted from the file's name. -/
def stepDeprecatedFile (s : DataStore) (pr : String × List String) : DataStore :=
  ((parseLuaFile pr.2).functions).foldl
    (fun s f =>
      indexFunction s
        { f with deprecatedInPatch := extractPatchFromFilename pr.1, deprecated := true }
        "deprecated") s

/-- The wiki pass's cross-reference against the deprecated-name list: looks up
the short name, falling back to the qualified name when the short name is
empty, and sets the deprecated flag on a hit. -/
def wikiCrossRef (dl : List String) (f : FuncRec) : FuncRec :=
  if dl.contains (if f.name == "" then f.fullName else f.name)
  then { f with deprecated := true } else f

/-- One function of the wiki pass: cross-reference against the deprecated-name
list, then index only when the qualified name is not already present. -/
def stepWikiFunc (s : DataStore) (f : FuncRec) : DataStore :=
  if mapHas s.functions (wikiCrossRef s.deprecatedList f).fullName then s
  else indexFunction s (wikiCrossRef s.deprecatedList f) "wiki"

/-- One function of the widget pass: index unconditionally, then additionally
register method-flagged functions under their owning class's method list. -/
def widgetRegister (w : List (String × WidgetEntry)) (ns : String) (f : FuncRec) :
    List (String × WidgetEntry) :=
  match mapGet w ns with
  | some e => mapSet w ns { e with methods := e.methods ++ [f] }
  | none => mapSet w ns { classInfo := none, methods := [f] }

/-- One function of the widget pass: index unconditionally, then additionally
register method-flagged functions under their owning class's method list
(creating a class-info-less entry when the owner was never declared). -/
def stepWidgetFunc (s : DataStore) (f : FuncRec) : DataStore :=
  if f.isMethod && optStrTruthy f.nspace then
    { indexFunction s f "widget" with
        widgets := widgetRegister (indexFunction s f "widget").widgets (f.nspace.getD "")
                     (indexedCopy f "widget") }
  else indexFunction s f "widget"

/-- One file of the widget pass: classes first, then functions. -/
def stepWidgetFile (s : DataStore) (file : List String) : DataStore :=
  ((parseLuaFile file).functions).foldl stepWidgetFunc
    (((parseLuaFile file).classes).foldl indexClass s)

/-- One file of the FrameXML pass: classes indexed, functions only when their
qualified name is not already present. -/
def stepFrameXmlFile (s : DataStore) (file : List String) : DataStore :=
  ((parseLuaFile file).functions).foldl
    (fun s f => if mapHas s.functions f.fullName then s else indexFunction s f "framexml")
    (((parseLuaFile file).classes).foldl indexClass s)

/-- The final enrichment applied to one indexed record: attach the version-tag
set found under the short name, else under the qualified name, else leave the
record unchanged. -/
def enrichFunc (fm : List (String × List String)) (name : String) (f : FuncRec) : FuncRec :=
  match mapGet fm (if f.name == "" then name else f.name) with
  | some vs => { f with gameVersions := vs }
  | none =>
    match mapGet fm name with
    | some vs => { f with gameVersions := vs }
    | none => f

/-- Enrichment over the whole function index. -/
def enrichMap (fm : List (String × List String)) (m : List (String × FuncRec)) :
    List (String × FuncRec) :=
  m.map (fun p => (p.1, enrichFunc fm p.1 p.2))

/-- The final enrichment pass over the store. -/
def enrichStore (s : DataStore) : DataStore :=
  { s with functions := enrichMap s.flavorMap s.functions }

/-- Load step 1: read the extension version (falling back to "unknown"). -/
def setVersion (c : Corpus) (s : DataStore) : DataStore :=
  { s with extensionVersion := some (c.pkgVersion.getD "unknown") }

/-- Load step 2: parse the flavor side table when its file exists. -/
def setFlavor (c : Corpus) (s : DataStore) : DataStore :=
  match c.flavorFile with
  | some content => { s with flavorMap := parseFlavorFile content }
  | none => s

/-- Load step 3: add every parsed deprecated name to the set. -/
def setDeprecatedList (c : Corpus) (s : DataStore) : DataStore :=
  match c.deprecatedFile with
  | some content =>
      { s with deprecatedList := (parseDeprecatedFile content).foldl setAdd s.deprecatedList }
  | none => s

/-- Load step 4: the primary Blizzard documentation pass. -/
def passBlizzard (c : Corpus) (s : DataStore) : DataStore :=
  c.blizzFiles.foldl stepBlizzFile s

/-- Load step 5: the deprecated-API pass. -/
def passDeprecatedDir (c : Corpus) (s : DataStore) : DataStore :=
  c.deprecatedDirFiles.foldl stepDeprecatedFile s

/-- Load step 6: the wiki supplemental pass. -/
def passWiki (c : Corpus) (s : DataStore) : DataStore :=
  match c.wikiFile with
  | some lines => ((parseLuaFile lines).functions).foldl stepWikiFunc s
  | none => s

/-- Load step 7: the widget documentation pass. -/
def passWidget (c : Corpus) (s : DataStore) : DataStore :=
  c.widgetFiles.foldl stepWidgetFile s

/-- Load step 8: the auxiliary FrameXML passes (the walked files of all the
named subdirectories, concatenated in pass order). -/
def passFrameXml (c : Corpus) (s : DataStore) : DataStore :=
  c.frameXmlFiles.foldl stepFrameXmlFile s

/-- Load step 9: the enum table, replaced when its file exists. -/
def setEnums (c : Corpus) (s : DataStore) : DataStore :=
  match c.enumFile with
  | some lines => { s with enums := parseEnumFile lines }
  | none => s

/-- Load step 10: the event table. -/
def setEvents (c : Corpus) (s : DataStore) : DataStore :=
  match c.eventFile with
  | some lines => { s with events := parseEventFile lines }
  | none => s

/-- Load step 11: the CVar list. -/
def setCVars (c : Corpus) (s : DataStore) : DataStore :=
  match c.cvarFile with
  | some lines => { s with cvars := parseCVarFile lines }
  | none => s

/-- Model of `DataStore.load`, the ordered pass sequence over a corpus: the
extension version, the two side tables, the five documentation passes, the
three single-file tables, then enrichment. The method mutates the receiver,
so the prior store is the starting state. -/
def load (s0 : DataStore) (c : Corpus) : DataStore :=
  enrichStore
    (setCVars c
      (setEvents c
        (setEnums c
          (passFrameXml c
            (passWidget c
              (passWiki c
                (passDeprecatedDir c
                  (passBlizzard c
                    (setDeprecatedList c
                      (setFlavor c
                        (setVersion c s0)))))))))))

/-- Model of `DataStore.lookupApi`: exact key match, then case-insensitive
exact key match, then the partial scan capped at 25. -/
def lookupApi (s : DataStore) (name : String) : List FuncRec :=
  match mapGet s.functions name with
  | some f => [f]
  | none =>
    match s.functions.find? (fun p => jsToLower p.1 == jsToLower name) with
    | some p => [p.2]
    | none =>
      ((s.functions.filter (fun p =>
        jsToLower (if p.2.name == "" then p.1 else p.2.name) == jsToLower name
          || containsStr (jsToLower p.1) (jsToLower name))).map (fun p => p.2)).take 25

/-- Model of `DataStore.searchApi`: substring search over the space-joined
truthy pieces of qualified name, short name and description, capped at 50. -/
def searchApi (s : DataStore) (query : String) : List FuncRec :=
  ((s.functions.filter (fun p =>
    containsStr
      (jsToLower (joinSpace
        (([some p.2.fullName, some p.2.name, p.2.description].filterMap id).filter
          (fun x => x != ""))))
      (jsToLower query))).map (fun p => p.2)).take 50

/-- Model of `DataStore.listDeprecated` with its optional namespace filter. -/
def listDeprecated (s : DataStore) (namespaceFilter : Option String) : List FuncRec :=
  s.functions.foldl (fun results p =>
    let func := p.2
    if !func.deprecated then results
    else if optStrTruthy namespaceFilter && optStrTruthy func.nspace
        && !containsStr (jsToLower (func.nspace.getD "")) (jsToLower (namespaceFilter.getD ""))
      then results
    else if optStrTruthy namespaceFilter && !optStrTruthy func.nspace
        && !containsStr (jsToLower func.fullName) (jsToLower (namespaceFilter.getD ""))
      then results
    else results ++ [func]) []

/-- Model of `DataStore.getNamespace`: exact then case-insensitive lookup. -/
def getNamespace (s : DataStore) (name : String) : List FuncRec :=
  match mapGet s.namespaces name with
  | some funcs => funcs
  | none =>
    match s.namespaces.find? (fun p => jsToLower p.1 == jsToLower name) with
    | some p => p.2
    | none => []

/-- Model of `DataStore.listNamespaces`: sorted key list. -/
def insertSorted (x : String) : List String → List String
  | [] => [x]
  | y :: ys => if x ≤ y then x :: y :: ys else y :: insertSorted x ys

/-- Lexicographic string sort modelling JS `Array.prototype.sort()` on the
(unique) key arrays. -/
def sortStrings (l : List String) : List String :=
  l.foldr insertSorted []

/-- Model of `DataStore.listNamespaces`. -/
def listNamespaces (s : DataStore) : List String :=
  sortStrings (s.namespaces.map (fun p => p.1))

/-- Model of `DataStore.getWidgetMethods`: exact then case-insensitive lookup,
absent when nothing matches. -/
def getWidgetMethods (s : DataStore) (widgetType : String) : Option WidgetEntry :=
  match mapGet s.widgets widgetType with
  | some w => some w
  | none =>
    match s.widgets.find? (fun p => jsToLower p.1 == jsToLower widgetType) with
    | some p => some p.2
    | none => none

/-- Model of `DataStore.listWidgets`. -/
def listWidgets (s : DataStore) : List String :=
  sortStrings (s.widgets.map (fun p => p.1))

/-- Result shape of `getEnum`: the bare value table on an exact hit, or a
one-entry wrapper named by the matched key on a case-insensitive or substring
hit. -/
inductive EnumLookup where
  | table (values : List (String × Nat))
  | single (name : String) (values : List (String × Nat))
deriving Repr, DecidableEq

/-- Model of `DataStore.getEnum`. -/
def getEnum (s : DataStore) (name : String) : Option EnumLookup :=
  match mapGet s.enums name with
  | some values => some (EnumLookup.table values)
  | none =>
    match s.enums.find? (fun p =>
        jsToLower p.1 == jsToLower name || containsStr (jsToLower p.1) (jsToLower name)) with
    | some p => some (EnumLookup.single p.1 p.2)
    | none => none

/-- Model of `DataStore.searchEnums`: name-to-table mapping of every enum
whose name contains the query case-insensitively. -/
def searchEnums (s : DataStore) (query : String) : List (String × List (String × Nat)) :=
  s.enums.filter (fun p => containsStr (jsToLower p.1) (jsToLower query))

/-- Result shape of `getEvent`: a single record on an exact (upper-cased) hit,
or the list of substring matches. -/
inductive EventLookup where
  | single (evt : EventRec)
  | multiple (evts : List EventRec)
deriving Repr, DecidableEq

/-- Model of `DataStore.getEvent`. -/
def getEvent (s : DataStore) (name : String) : Option EventLookup :=
  match mapGet s.events (jsToUpper name) with
  | some evt => some (EventLookup.single evt)
  | none =>
    if ((s.events.filter (fun p => containsStr p.1 (jsToUpper name))).map (fun p => p.2)).isEmpty
    then none
    else some (EventLookup.multiple
      ((s.events.filter (fun p => containsStr p.1 (jsToUpper name))).map (fun p => p.2)))

/-- The statistics record of `getStats`. -/
structure Stats where
  extensionVersion : Option String
  totalFunctions : Nat
  deprecatedFunctions : Nat
  namespaces : Nat
  widgetTypes : Nat
  enums : Nat
  events : Nat
  cvars : Nat
deriving Repr, DecidableEq

/-- Model of `DataStore.getStats`. -/
def getStats (s : DataStore) : Stats :=
  { extensionVersion := s.extensionVersion,
    totalFunctions := s.functions.length,
    deprecatedFunctions := (s.functions.filter (fun p => p.2.deprecated)).length,
    namespaces := s.namespaces.length,
    widgetTypes := s.widgets.length,
    enums := s.enums.length,
    events := s.events.length,
    cvars := s.cvars.length }

theorem mapGet_cons {β : Type} (p : String × β) (m : List (String × β)) (k : String) :
    mapGet (p :: m) k = if p.1 == k then some p.2 else mapGet m k := by
  simp only [mapGet, List.find?_cons]
  cases h : p.1 == k <;> simp [h]

theorem mapGet_mapSet_self {β : Type} (m : List (String × β)) (k : String) (v : β) :
    mapGet (mapSet m k v) k = some v := by
  induction m with
  | nil => simp [mapSet, mapGet_cons]
  | cons p m ih =>
    simp only [mapSet]
    by_cases h : p.1 = k
    · simp [h, mapGet_cons]
    · have hb : (p.1 == k) = false := by simp [h]
      simp [hb, mapGet_cons, ih]

theorem mapGet_mapSet_ne {β : Type} (m : List (String × β)) (k k' : String) (v : β)
    (h : k' ≠ k) : mapGet (mapSet m k v) k' = mapGet m k' := by
  induction m with
  | nil =>
    have hb : (k == k') = false := by simp [Ne.symm h]
    simp [mapSet, mapGet_cons, hb, mapGet]
  | cons p m ih =>
    simp only [mapSet]
    by_cases hp : p.1 = k
    · have hb : (k == k') = false := by simp [Ne.symm h]
      have hb2 : (p.1 == k') = false := by simp [hp, Ne.symm h]
      simp [hp, mapGet_cons, hb, hb2]
    · have hb : (p.1 == k) = false := by simp [hp]
      simp [hb, mapGet_cons, ih]

theorem mapGet_mem {β : Type} (m : List (String × β)) (k : String) (v : β)
    (h : mapGet m k = some v) : (k, v) ∈ m := by
  induction m with
  | nil => simp [mapGet] at h
  | cons p m ih =>
    rw [mapGet_cons] at h
    by_cases hp : p.1 = k
    · simp [hp] at h
      rw [List.mem_cons]
      left
      cases p with
      | mk a b => simp_all
    · have hb : (p.1 == k) = false := by simp [hp]
      simp [hb] at h
      exact List.mem_cons_of_mem _ (ih h)

/-- C4. For every store and query string, `searchApi` returns at most 50
results and `lookupApi` returns at most 25 results (so in particular its
partial-match path is capped at 25). -/
theorem c4_result_caps (s : DataStore) (q : String) :
    (searchApi s q).length ≤ 50 ∧ (lookupApi s q).length ≤ 25 := by
  constructor
  · unfold searchApi
    exact List.length_take_le 50 _
  · unfold lookupApi
    cases mapGet s.functions q with
    | some f => simp
    | none =>
      dsimp only
      cases (s.functions.find? (fun p => jsToLower p.1 == jsToLower q)) with
      | some p => simp
      | none => exact List.length_take_le 25 _

/-- A corpus holding only the five-line enum file of the round-trip claim. -/
def enumRoundTripCorpus : Corpus :=
  { pkgVersion := none, flavorFile := none, deprecatedFile := none, blizzFiles := [],
    deprecatedDirFiles := [], wikiFile := none, widgetFiles := [], frameXmlFiles := [],
    enumFile := some ["---@enum Enum.Foo", "Enum.Foo = \x7b", "A = 0,", "B = 1,", "\x7d"],
    eventFile := none, cvarFile := none }

/-- C5. Parsing the five enum input lines and loading the result makes
`getEnum "Enum.Foo"` return exactly the mapping A to 0, B to 1. -/
theorem c5_enum_round_trip :
    getEnum (load newStore enumRoundTripCorpus) "Enum.Foo"
      = some (EnumLookup.table [("A", 0), ("B", 1)]) := by
  rfl

theorem and_bit_mod8 (n i : Nat) (h : i < 3) : (n % 8) &&& 2 ^ i = n &&& 2 ^ i := by
  rw [Nat.and_two_pow, Nat.and_two_pow, show (8 : Nat) = 2 ^ 3 from rfl,
      Nat.testBit_mod_two_pow]
  simp [h]

/-- C7. Decoding bitmask 0x5 yields exactly the Mainline and Mists tags,
decoding 0x0 yields the empty set, and bits above bit 2 never contribute:
decoding any integer equals decoding its residue mod 8. -/
theorem c7_flavor_bitmask_decode :
    decodeFlavorBitmask 0x5 = ["Mainline", "Mists"] ∧
    decodeFlavorBitmask 0x0 = [] ∧
    ∀ n : Nat, decodeFlavorBitmask n = decodeFlavorBitmask (n % 8) := by
  refine ⟨rfl, rfl, fun n => ?_⟩
  have h1 : (n % 8) &&& 1 = n &&& 1 := by simpa using and_bit_mod8 n 0 (by decide)
  have h2 : (n % 8) &&& 2 = n &&& 2 := by simpa using and_bit_mod8 n 1 (by decide)
  have h4 : (n % 8) &&& 4 = n &&& 4 := by simpa using and_bit_mod8 n 2 (by decide)
  unfold decodeFlavorBitmask
  rw [h1, h2, h4]

/-- C8. Every query operation is a total function of the store and, on the
freshly constructed (empty) store, any not-found condition is an empty list,
empty mapping or absent value — never an error value. -/
theorem c8_queries_return_empty_on_empty_store (q : String) :
    lookupApi newStore q = [] ∧ searchApi newStore q = [] ∧
    listDeprecated newStore (some q) = [] ∧ listDeprecated newStore none = [] ∧
    getNamespace newStore q = [] ∧ listNamespaces newStore = [] ∧
    getWidgetMethods newStore q = none ∧ listWidgets newStore = [] ∧
    getEnum newStore q = none ∧ searchEnums newStore q = [] ∧
    getEvent newStore q = none ∧
    getStats newStore = (⟨none, 0, 0, 0, 0, 0, 0, 0⟩ : Stats) :=
  ⟨rfl, rfl, rfl, rfl, rfl, rfl, rfl, rfl, rfl, rfl, rfl, rfl⟩

/-- C3. Processing a wiki-pass function whose qualified name is already a key
of the function index leaves the whole store unchanged — the supplemental
pass never overwrites an existing record in any field. -/
theorem wikiCrossRef_fullName (dl : List String) (f : FuncRec) :
    (wikiCrossRef dl f).fullName = f.fullName := by
  unfold wikiCrossRef
  split <;> split <;> rfl

/-- C3 continued: see the doc comment above the statement. -/
theorem c3_wiki_pass_no_overwrite (s : DataStore) (f : FuncRec)
    (h : mapHas s.functions f.fullName = true) : stepWikiFunc s f = s := by
  unfold stepWikiFunc
  have hw : mapHas s.functions (wikiCrossRef s.deprecatedList f).fullName = true := by
    rw [wikiCrossRef_fullName]
    exact h
  rw [hw]
  simp

/-- A function record used by the claim witnesses. -/
def witnessRec : FuncRec :=
  { fullName := "A.B", nspace := some "A", name := "B", args := "", isMethod := false }

/-- Witness for C3: a store holding `A.B` is untouched by a wiki-pass function
of the same qualified name but a different description. -/
theorem c3_wiki_pass_no_overwrite_witness :
    stepWikiFunc { newStore with functions := [("A.B", witnessRec)] }
        { witnessRec with description := some "other text" }
      = { newStore with functions := [("A.B", witnessRec)] } :=
  c3_wiki_pass_no_overwrite _ _ (by decide)

/-- C6 counterexample: a pending comment block containing a well-formed
`@class Foo` line produces no class record when the line that follows the
block is a function declaration line — the function branch consumes and
clears the block before the class check can run. -/
theorem c6_class_line_lost_when_function_follows :
    (parseLuaFile ["---@class Foo", "function Bar() end"]).classes = [] ∧
    matchClassLine "---@class Foo" = some ("Foo", []) := by
  constructor
  · rfl
  · rfl

theorem parseLuaFile_classes_def (lines : List String) :
    (parseLuaFile lines).classes
      = (lines.foldl parseLuaStep
          { functions := [], classes := [], annotationLines := [] }).classes := rfl

theorem parseLuaStep_annot (st : LuaParseState) (l : String)
    (h : strStarts (jsTrim l) "---" = true) :
    parseLuaStep st l = { st with annotationLines := st.annotationLines ++ [jsTrim l] } := by
  simp [parseLuaStep, h]

theorem parseLuaFold_annots (block : List String) :
    ∀ st : LuaParseState, (∀ l ∈ block, strStarts (jsTrim l) "---" = true) →
    block.foldl parseLuaStep st
      = { st with annotationLines := st.annotationLines ++ block.map jsTrim } := by
  induction block with
  | nil =>
    intro st _
    simp
  | cons b bs ih =>
    intro st h
    rw [List.foldl_cons, parseLuaStep_annot st b (h b (by simp))]
    rw [ih _ (fun l hl => h l (List.mem_cons_of_mem _ hl))]
    simp

theorem parseLuaStep_clear (st : LuaParseState) (l : String)
    (h : strStarts (jsTrim l) "---" = false) :
    (parseLuaStep st l).annotationLines = [] := by
  unfold parseLuaStep
  rw [h]
  simp only [Bool.false_eq_true, if_false]
  split
  · split <;> rfl
  · rfl

theorem parseLuaStep_classes_sub (st : LuaParseState) (l : String) :
    ∃ d, (parseLuaStep st l).classes = st.classes ++ d := by
  unfold parseLuaStep
  split
  · exact ⟨[], by simp⟩
  · split
    · split
      · exact ⟨[], by simp⟩
      · exact ⟨[], by simp⟩
    · exact ⟨classesFromBlock st.annotationLines, rfl⟩

theorem parseLuaFold_classes_mem (l : List String) :
    ∀ (st : LuaParseState) (cd : ClassDef), cd ∈ st.classes →
      cd ∈ (l.foldl parseLuaStep st).classes := by
  induction l with
  | nil => intro st cd h; exact h
  | cons x xs ih =>
    intro st cd h
    rw [List.foldl_cons]
    apply ih
    obtain ⟨d, hd⟩ := parseLuaStep_classes_sub st x
    rw [hd]
    exact List.mem_append_left _ h

theorem parseLuaStep_emits_classes (st : LuaParseState) (t : String)
    (h1 : strStarts (jsTrim t) "---" = false)
    (h2 : strStarts (jsTrim t) "function " = false) :
    (parseLuaStep st t).classes = st.classes ++ classesFromBlock st.annotationLines := by
  unfold parseLuaStep
  rw [h1, h2]
  simp

theorem classesFromBlock_mem (ann : List String) (aLine : String) (nm : String)
    (parents : List String) (ha : aLine ∈ ann)
    (hm : matchClassLine aLine = some (nm, parents)) :
    buildClassDef ann nm parents ∈ classesFromBlock ann := by
  unfold classesFromBlock
  apply List.mem_filterMap.mpr
  exact ⟨aLine, ha, by rw [hm]; rfl⟩

theorem parseLuaFold_clears (pre : List String) (st0 : LuaParseState)
    (h0 : st0.annotationLines = [])
    (hpre : strStarts (jsTrim (pre.getLastD "")) "---" = false) :
    (pre.foldl parseLuaStep st0).annotationLines = [] := by
  rcases List.eq_nil_or_concat pre with h | ⟨ys, y, h⟩
  · subst h
    simpa using h0
  · subst h
    rw [List.concat_eq_append, List.foldl_append, List.foldl_cons, List.foldl_nil]
    apply parseLuaStep_clear
    rw [List.concat_eq_append] at hpre
    rwa [List.getLastD_concat] at hpre

/-- C6 amended: a class declaration line anywhere in a pending comment block
yields a class record with the comma-split trimmed parent list — provided the
line ending the block starts with neither the annotation marker nor
`function ` (a following function declaration line consumes the block
without running the class check, and a block never followed by such a line is
dropped). -/
theorem c6_class_block_indexed_amended
    (pre block : List String) (t : String) (rest : List String)
    (nm : String) (parents : List String) (aLine : String)
    (hpre : strStarts (jsTrim (pre.getLastD "")) "---" = false)
    (hblock : ∀ l ∈ block, strStarts (jsTrim l) "---" = true)
    (ha : aLine ∈ block)
    (hm : matchClassLine (jsTrim aLine) = some (nm, parents))
    (ht1 : strStarts (jsTrim t) "---" = false)
    (ht2 : strStarts (jsTrim t) "function " = false) :
    ∃ cd ∈ (parseLuaFile (pre ++ block ++ t :: rest)).classes,
      cd.name = nm ∧ cd.inherits = parents := by
  rw [parseLuaFile_classes_def]
  rw [List.append_assoc, List.foldl_append, List.foldl_append, List.foldl_cons]
  refine ⟨buildClassDef (block.map jsTrim) nm parents, ?_, rfl, rfl⟩
  apply parseLuaFold_classes_mem
  set st1 := pre.foldl parseLuaStep
    { functions := [], classes := [], annotationLines := [] } with hst1
  have hann1 : st1.annotationLines = [] :=
    parseLuaFold_clears pre _ rfl hpre
  rw [parseLuaFold_annots block st1 hblock]
  rw [parseLuaStep_emits_classes _ t ht1 ht2]
  apply List.mem_append_right
  simp only [hann1, List.nil_append]
  exact classesFromBlock_mem _ (jsTrim aLine) nm parents
    (List.mem_map_of_mem jsTrim ha) hm

/-- Witness for the amended C6: one class block with two parents, ended by a
local-table line, really produces the class record. -/
theorem c6_class_block_indexed_amended_witness :
    ∃ cd ∈ (parseLuaFile ["---@class Foo : A, B", "local X = \x7b\x7d"]).classes,
      cd.name = "Foo" ∧ cd.inherits = ["A", "B"] :=
  c6_class_block_indexed_amended [] ["---@class Foo : A, B"] "local X = \x7b\x7d" []
    "Foo" ["A", "B"] "---@class Foo : A, B" (by decide)
    (by intro l hl; simp at hl; subst hl; decide) (by simp) (by decide)
    (by decide) (by decide)

/-- The effect of one indexing action on the function index alone: an
unconditional write (the unconditional passes) or a write guarded on the key
being absent (the wiki and FrameXML passes). -/
inductive FnOp where
  | write (key : String) (f : FuncRec)
  | condWrite (key : String) (f : FuncRec)
deriving Repr, DecidableEq

/-- Apply one function-index operation. -/
def applyFnOp (m : List (String × FuncRec)) : FnOp → List (String × FuncRec)
  | FnOp.write k f => mapSet m k f
  | FnOp.condWrite k f => if mapHas m k then m else mapSet m k f

/-- Apply a script of function-index operations in order. -/
def applyFnOps (m : List (String × FuncRec)) (ops : List FnOp) : List (String × FuncRec) :=
  ops.foldl applyFnOp m

/-- The key an operation targets. -/
def fnOpKey : FnOp → String
  | FnOp.write k _ => k
  | FnOp.condWrite k _ => k

/-- The record an operation would store. -/
def fnOpVal : FnOp → FuncRec
  | FnOp.write _ f => f
  | FnOp.condWrite _ f => f

/-- Function-index writes of one primary-pass file. -/
def blizzFileScript (file : List String) : List FnOp :=
  ((parseLuaFile file).functions).map (fun f => FnOp.write f.fullName (indexedCopy f "blizzard"))

/-- Function-index writes of one deprecated-pass file. -/
def deprecatedFileScript (pr : String × List String) : List FnOp :=
  ((parseLuaFile pr.2).functions).map (fun f =>
    FnOp.write f.fullName
      (indexedCopy { f with deprecatedInPatch := extractPatchFromFilename pr.1,
                            deprecated := true } "deprecated"))

/-- Function-index writes of the wiki pass, given the deprecated-name list in
force when the pass runs. -/
def wikiScript (dl : List String) (c : Corpus) : List FnOp :=
  match c.wikiFile with
  | some lines => ((parseLuaFile lines).functions).map (fun f =>
      FnOp.condWrite (wikiCrossRef dl f).fullName (indexedCopy (wikiCrossRef dl f) "wiki"))
  | none => []

/-- Function-index writes of one widget-pass file. -/
def widgetFileScript (file : List String) : List FnOp :=
  ((parseLuaFile file).functions).map (fun f => FnOp.write f.fullName (indexedCopy f "widget"))

/-- Function-index writes of one FrameXML-pass file. -/
def frameXmlFileScript (file : List String) : List FnOp :=
  ((parseLuaFile file).functions).map (fun f =>
    FnOp.condWrite f.fullName (indexedCopy f "framexml"))

/-- The whole load's function-index script, in pass order. -/
def loadScript (c : Corpus) (dl : List String) : List FnOp :=
  (c.blizzFiles.map blizzFileScript).flatten ++
  ((c.deprecatedDirFiles.map deprecatedFileScript).flatten ++
  (wikiScript dl c ++
  ((c.widgetFiles.map widgetFileScript).flatten ++
  (c.frameXmlFiles.map frameXmlFileScript).flatten)))

/-- The flavor map in force after the side-table step, as a function of the
prior store's. -/
def flavorOf (c : Corpus) (prior : List (String × List String)) : List (String × List String) :=
  match c.flavorFile with
  | some content => parseFlavorFile content
  | none => prior

/-- The deprecated-name list in force after the side-table step. -/
def dlOf (c : Corpus) (prior : List String) : List String :=
  match c.deprecatedFile with
  | some content => (parseDeprecatedFile content).foldl setAdd prior
  | none => prior

theorem applyFnOps_cons (m : List (String × FuncRec)) (op : FnOp) (S : List FnOp) :
    applyFnOps m (op :: S) = applyFnOps (applyFnOp m op) S := rfl

theorem applyFnOps_append (m : List (String × FuncRec)) (S T : List FnOp) :
    applyFnOps m (S ++ T) = applyFnOps (applyFnOps m S) T :=
  List.foldl_append _ _ _ _

theorem foldl_proj_const {σ α γ : Type _} (f : σ → α → σ) (g : σ → γ)
    (h : ∀ s a, g (f s a) = g s) : ∀ (l : List α) (s : σ), g (l.foldl f s) = g s := by
  intro l
  induction l with
  | nil => intro s; rfl
  | cons x xs ih =>
    intro s
    rw [List.foldl_cons, ih, h]

theorem foldl_pres {σ α : Type _} (f : σ → α → σ) (P : σ → Prop)
    (h : ∀ s a, P s → P (f s a)) : ∀ (l : List α) (s : σ), P s → P (l.foldl f s) := by
  intro l
  induction l with
  | nil => intro s hs; exact hs
  | cons x xs ih =>
    intro s hs
    rw [List.foldl_cons]
    exact ih _ (h s x hs)

theorem indexFunction_functions (s : DataStore) (f : FuncRec) (src : String) :
    (indexFunction s f src).functions
      = mapSet s.functions f.fullName (indexedCopy f src) := by
  unfold indexFunction
  split
  · split <;> rfl
  · rfl

theorem indexFunction_namespaces (s : DataStore) (f : FuncRec) (src : String) :
    (indexFunction s f src).namespaces = s.namespaces ∨
    ∃ ns, f.nspace = some ns ∧ (ns != "" && !f.isMethod) = true ∧
      (indexFunction s f src).namespaces = nsPush s.namespaces ns (indexedCopy f src) := by
  unfold indexFunction
  split
  · rename_i ns hns
    split
    · rename_i hguard
      exact Or.inr ⟨ns, hns, hguard, rfl⟩
    · exact Or.inl rfl
  · exact Or.inl rfl

theorem indexClass_functions (s : DataStore) (cls : ClassDef) :
    (indexClass s cls).functions = s.functions := by
  unfold indexClass
  split <;> rfl

theorem indexClass_namespaces (s : DataStore) (cls : ClassDef) :
    (indexClass s cls).namespaces = s.namespaces := by
  unfold indexClass
  split <;> rfl

/-- The side components no documentation pass touches, tupled for one
preservation lemma per pass. -/
def sideData (s : DataStore) :
    List (String × List (String × Nat)) × List (String × EventRec) × List String ×
      List String × List (String × List String) × Option String :=
  (s.enums, s.events, s.cvars, s.deprecatedList, s.flavorMap, s.extensionVersion)

theorem indexFunction_sideData (s : DataStore) (f : FuncRec) (src : String) :
    sideData (indexFunction s f src) = sideData s := by
  unfold indexFunction
  split
  · split <;> rfl
  · rfl

theorem indexClass_sideData (s : DataStore) (cls : ClassDef) :
    sideData (indexClass s cls) = sideData s := by
  unfold indexClass
  split <;> rfl

theorem stepBlizzFile_sideData (s : DataStore) (file : List String) :
    sideData (stepBlizzFile s file) = sideData s := by
  unfold stepBlizzFile
  rw [foldl_proj_const indexClass sideData indexClass_sideData]
  rw [foldl_proj_const _ sideData (fun s f => indexFunction_sideData s f "blizzard")]

theorem stepDeprecatedFile_sideData (s : DataStore) (pr : String × List String) :
    sideData (stepDeprecatedFile s pr) = sideData s := by
  unfold stepDeprecatedFile
  rw [foldl_proj_const _ sideData (fun s f => indexFunction_sideData s _ "deprecated")]

theorem stepWikiFunc_sideData (s : DataStore) (f : FuncRec) :
    sideData (stepWikiFunc s f) = sideData s := by
  unfold stepWikiFunc
  split
  · rfl
  · exact indexFunction_sideData s _ "wiki"

theorem stepWidgetFunc_sideData (s : DataStore) (f : FuncRec) :
    sideData (stepWidgetFunc s f) = sideData s := by
  unfold stepWidgetFunc
  split
  · exact indexFunction_sideData s f "widget"
  · exact indexFunction_sideData s f "widget"

theorem stepWidgetFile_sideData (s : DataStore) (file : List String) :
    sideData (stepWidgetFile s file) = sideData s := by
  unfold stepWidgetFile
  rw [foldl_proj_const stepWidgetFunc sideData stepWidgetFunc_sideData]
  rw [foldl_proj_const indexClass sideData indexClass_sideData]

theorem stepFrameXmlFile_sideData (s : DataStore) (file : List String) :
    sideData (stepFrameXmlFile s file) = sideData s := by
  unfold stepFrameXmlFile
  have hstep : ∀ (s : DataStore) (f : FuncRec),
      sideData (if mapHas s.functions f.fullName then s else indexFunction s f "framexml")
        = sideData s := by
    intro s f
    split
    · rfl
    · exact indexFunction_sideData s f "framexml"
  rw [foldl_proj_const _ sideData hstep]
  rw [foldl_proj_const indexClass sideData indexClass_sideData]

theorem passBlizzard_sideData (c : Corpus) (s : DataStore) :
    sideData (passBlizzard c s) = sideData s :=
  foldl_proj_const stepBlizzFile sideData stepBlizzFile_sideData _ s

theorem passDeprecatedDir_sideData (c : Corpus) (s : DataStore) :
    sideData (passDeprecatedDir c s) = sideData s :=
  foldl_proj_const stepDeprecatedFile sideData stepDeprecatedFile_sideData _ s

theorem passWiki_sideData (c : Corpus) (s : DataStore) :
    sideData (passWiki c s) = sideData s := by
  unfold passWiki
  split
  · exact foldl_proj_const stepWikiFunc sideData stepWikiFunc_sideData _ s
  · rfl

theorem passWidget_sideData (c : Corpus) (s : DataStore) :
    sideData (passWidget c s) = sideData s :=
  foldl_proj_const stepWidgetFile sideData stepWidgetFile_sideData _ s

theorem passFrameXml_sideData (c : Corpus) (s : DataStore) :
    sideData (passFrameXml c s) = sideData s :=
  foldl_proj_const stepFrameXmlFile sideData stepFrameXmlFile_sideData _ s

theorem sideData_components {s t : DataStore} (h : sideData s = sideData t) :
    s.enums = t.enums ∧ s.events = t.events ∧ s.cvars = t.cvars ∧
    s.deprecatedList = t.deprecatedList ∧ s.flavorMap = t.flavorMap ∧
    s.extensionVersion = t.extensionVersion := by
  unfold sideData at h
  simp only [Prod.mk.injEq] at h
  exact ⟨h.1, h.2.1, h.2.2.1, h.2.2.2.1, h.2.2.2.2.1, h.2.2.2.2.2⟩

/-- Side data after the five documentation passes equals the side data going
in. -/
theorem docPasses_sideData (c : Corpus) (s : DataStore) :
    sideData (passFrameXml c (passWidget c (passWiki c
        (passDeprecatedDir c (passBlizzard c s))))) = sideData s := by
  rw [passFrameXml_sideData, passWidget_sideData, passWiki_sideData,
      passDeprecatedDir_sideData, passBlizzard_sideData]

theorem foldl_indexFunction_functions (src : String) (fs : List FuncRec) :
    ∀ s : DataStore,
      ((fs.foldl (fun s f => indexFunction s f src) s).functions)
        = applyFnOps s.functions
            (fs.map (fun f => FnOp.write f.fullName (indexedCopy f src))) := by
  induction fs with
  | nil => intro s; rfl
  | cons f fs ih =>
    intro s
    rw [List.foldl_cons, List.map_cons, applyFnOps_cons, ih]
    rw [indexFunction_functions]
    rfl

theorem stepBlizzFile_functions (s : DataStore) (file : List String) :
    (stepBlizzFile s file).functions = applyFnOps s.functions (blizzFileScript file) := by
  unfold stepBlizzFile blizzFileScript
  rw [foldl_proj_const indexClass (fun s => s.functions) indexClass_functions]
  rw [foldl_indexFunction_functions]

theorem stepDeprecatedFile_functions (s : DataStore) (pr : String × List String) :
    (stepDeprecatedFile s pr).functions
      = applyFnOps s.functions (deprecatedFileScript pr) := by
  unfold stepDeprecatedFile deprecatedFileScript
  have hfold : ∀ (fs : List FuncRec) (s : DataStore),
      ((fs.foldl (fun s f => indexFunction s
          { f with deprecatedInPatch := extractPatchFromFilename pr.1,
                   deprecated := true } "deprecated") s).functions)
        = applyFnOps s.functions (fs.map (fun f =>
            FnOp.write f.fullName
              (indexedCopy { f with deprecatedInPatch := extractPatchFromFilename pr.1,
                                    deprecated := true } "deprecated"))) := by
    intro fs
    induction fs with
    | nil => intro s; rfl
    | cons f fs ih =>
      intro s
      rw [List.foldl_cons, List.map_cons, applyFnOps_cons, ih, indexFunction_functions]
      rfl
  rw [hfold]

theorem stepWikiFunc_deprecatedList (s : DataStore) (f : FuncRec) :
    (stepWikiFunc s f).deprecatedList = s.deprecatedList :=
  (sideData_components (stepWikiFunc_sideData s f)).2.2.2.1

theorem stepWikiFunc_functions (s : DataStore) (f : FuncRec) :
    (stepWikiFunc s f).functions
      = applyFnOp s.functions
          (FnOp.condWrite (wikiCrossRef s.deprecatedList f).fullName
            (indexedCopy (wikiCrossRef s.deprecatedList f) "wiki")) := by
  show (stepWikiFunc s f).functions
      = if mapHas s.functions (wikiCrossRef s.deprecatedList f).fullName then s.functions
        else mapSet s.functions (wikiCrossRef s.deprecatedList f).fullName
          (indexedCopy (wikiCrossRef s.deprecatedList f) "wiki")
  unfold stepWikiFunc
  split
  · rfl
  · exact indexFunction_functions s _ "wiki"

theorem foldl_stepWikiFunc_functions (fs : List FuncRec) :
    ∀ s : DataStore,
      ((fs.foldl stepWikiFunc s).functions)
        = applyFnOps s.functions
            (fs.map (fun f => FnOp.condWrite (wikiCrossRef s.deprecatedList f).fullName
              (indexedCopy (wikiCrossRef s.deprecatedList f) "wiki"))) := by
  induction fs with
  | nil => intro s; rfl
  | cons f fs ih =>
    intro s
    rw [List.foldl_cons, List.map_cons, applyFnOps_cons, ih, stepWikiFunc_deprecatedList,
        stepWikiFunc_functions]

theorem stepWidgetFunc_functions (s : DataStore) (f : FuncRec) :
    (stepWidgetFunc s f).functions
      = applyFnOp s.functions (FnOp.write f.fullName (indexedCopy f "widget")) := by
  unfold stepWidgetFunc
  split
  · exact indexFunction_functions s f "widget"
  · exact indexFunction_functions s f "widget"

theorem stepWidgetFile_functions (s : DataStore) (file : List String) :
    (stepWidgetFile s file).functions
      = applyFnOps s.functions (widgetFileScript file) := by
  unfold stepWidgetFile widgetFileScript
  have hfold : ∀ (fs : List FuncRec) (s : DataStore),
      ((fs.foldl stepWidgetFunc s).functions)
        = applyFnOps s.functions
            (fs.map (fun f => FnOp.write f.fullName (indexedCopy f "widget"))) := by
    intro fs
    induction fs with
    | nil => intro s; rfl
    | cons f fs ih =>
      intro s
      rw [List.foldl_cons, List.map_cons, applyFnOps_cons, ih, stepWidgetFunc_functions]
  rw [hfold]
  rw [foldl_proj_const indexClass (fun s => s.functions) indexClass_functions]

theorem stepFrameXmlFile_functions (s : DataStore) (file : List String) :
    (stepFrameXmlFile s file).functions
      = applyFnOps s.functions (frameXmlFileScript file) := by
  unfold stepFrameXmlFile frameXmlFileScript
  have hfold : ∀ (fs : List FuncRec) (s : DataStore),
      ((fs.foldl (fun s f => if mapHas s.functions f.fullName then s
          else indexFunction s f "framexml") s).functions)
        = applyFnOps s.functions
            (fs.map (fun f => FnOp.condWrite f.fullName (indexedCopy f "framexml"))) := by
    intro fs
    induction fs with
    | nil => intro s; rfl
    | cons f fs ih =>
      intro s
      rw [List.foldl_cons, List.map_cons, applyFnOps_cons, ih]
      have hstep : (if mapHas s.functions f.fullName then s
            else indexFunction s f "framexml").functions
          = applyFnOp s.functions (FnOp.condWrite f.fullName (indexedCopy f "framexml")) := by
        show _ = if mapHas s.functions f.fullName then s.functions
          else mapSet s.functions f.fullName (indexedCopy f "framexml")
        split
        · rfl
        · exact indexFunction_functions s f "framexml"
      rw [hstep]
  rw [hfold]
  rw [foldl_proj_const indexClass (fun s => s.functions) indexClass_functions]

theorem foldl_file_reify {α : Type _} (f : DataStore → α → DataStore)
    (script : α → List FnOp)
    (h : ∀ s a, (f s a).functions = applyFnOps s.functions (script a)) :
    ∀ (l : List α) (s : DataStore),
      ((l.foldl f s).functions) = applyFnOps s.functions (l.map script).flatten := by
  intro l
  induction l with
  | nil => intro s; rfl
  | cons x xs ih =>
    intro s
    rw [List.foldl_cons, List.map_cons, List.flatten_cons, applyFnOps_append, ih, h]

theorem passBlizzard_functions (c : Corpus) (s : DataStore) :
    (passBlizzard c s).functions
      = applyFnOps s.functions (c.blizzFiles.map blizzFileScript).flatten :=
  foldl_file_reify stepBlizzFile blizzFileScript stepBlizzFile_functions _ s

theorem passDeprecatedDir_functions (c : Corpus) (s : DataStore) :
    (passDeprecatedDir c s).functions
      = applyFnOps s.functions (c.deprecatedDirFiles.map deprecatedFileScript).flatten :=
  foldl_file_reify stepDeprecatedFile deprecatedFileScript stepDeprecatedFile_functions _ s

theorem passWiki_functions (c : Corpus) (s : DataStore) :
    (passWiki c s).functions
      = applyFnOps s.functions (wikiScript s.deprecatedList c) := by
  unfold passWiki wikiScript
  cases c.wikiFile with
  | none => rfl
  | some lines => exact foldl_stepWikiFunc_functions _ s

theorem passWidget_functions (c : Corpus) (s : DataStore) :
    (passWidget c s).functions
      = applyFnOps s.functions (c.widgetFiles.map widgetFileScript).flatten :=
  foldl_file_reify stepWidgetFile widgetFileScript stepWidgetFile_functions _ s

theorem passFrameXml_functions (c : Corpus) (s : DataStore) :
    (passFrameXml c s).functions
      = applyFnOps s.functions (c.frameXmlFiles.map frameXmlFileScript).flatten :=
  foldl_file_reify stepFrameXmlFile frameXmlFileScript stepFrameXmlFile_functions _ s

theorem sideSteps_functions (c : Corpus) (s0 : DataStore) :
    (setDeprecatedList c (setFlavor c (setVersion c s0))).functions = s0.functions := by
  unfold setDeprecatedList setFlavor setVersion
  cases c.deprecatedFile <;> cases c.flavorFile <;> rfl

theorem sideSteps_deprecatedList (c : Corpus) (s0 : DataStore) :
    (setDeprecatedList c (setFlavor c (setVersion c s0))).deprecatedList
      = dlOf c s0.deprecatedList := by
  unfold setDeprecatedList setFlavor setVersion dlOf
  cases c.deprecatedFile <;> cases c.flavorFile <;> rfl

theorem sideSteps_flavorMap (c : Corpus) (s0 : DataStore) :
    (setDeprecatedList c (setFlavor c (setVersion c s0))).flavorMap
      = flavorOf c s0.flavorMap := by
  unfold setDeprecatedList setFlavor setVersion flavorOf
  cases c.deprecatedFile <;> cases c.flavorFile <;> rfl

theorem enrichStore_functions (s : DataStore) :
    (enrichStore s).functions = enrichMap s.flavorMap s.functions := rfl

theorem setEnums_functions (c : Corpus) (s : DataStore) :
    (setEnums c s).functions = s.functions := by
  unfold setEnums
  cases c.enumFile <;> rfl

theorem setEvents_functions (c : Corpus) (s : DataStore) :
    (setEvents c s).functions = s.functions := by
  unfold setEvents
  cases c.eventFile <;> rfl

theorem setCVars_functions (c : Corpus) (s : DataStore) :
    (setCVars c s).functions = s.functions := by
  unfold setCVars
  cases c.cvarFile <;> rfl

theorem setEnums_flavorMap (c : Corpus) (s : DataStore) :
    (setEnums c s).flavorMap = s.flavorMap := by
  unfold setEnums
  cases c.enumFile <;> rfl

theorem setEvents_flavorMap (c : Corpus) (s : DataStore) :
    (setEvents c s).flavorMap = s.flavorMap := by
  unfold setEvents
  cases c.eventFile <;> rfl

theorem setCVars_flavorMap (c : Corpus) (s : DataStore) :
    (setCVars c s).flavorMap = s.flavorMap := by
  unfold setCVars
  cases c.cvarFile <;> rfl

theorem passes_deprecatedList (c : Corpus) (s : DataStore) :
    (passDeprecatedDir c (passBlizzard c s)).deprecatedList = s.deprecatedList := by
  have h1 := sideData_components (passDeprecatedDir_sideData c (passBlizzard c s))
  have h2 := sideData_components (passBlizzard_sideData c s)
  rw [h1.2.2.2.1, h2.2.2.2.1]

/-- The whole load's effect on the function index: the side tables fixed
first, then the pass script applied to the starting index, then enrichment
under the loaded flavor map. -/
theorem load_functions_reify (c : Corpus) (s0 : DataStore) :
    (load s0 c).functions
      = enrichMap (flavorOf c s0.flavorMap)
          (applyFnOps s0.functions (loadScript c (dlOf c s0.deprecatedList))) := by
  unfold load
  rw [enrichStore_functions]
  rw [setCVars_flavorMap, setEvents_flavorMap, setEnums_flavorMap]
  rw [setCVars_functions, setEvents_functions, setEnums_functions]
  have hfm : (passFrameXml c (passWidget c (passWiki c (passDeprecatedDir c
      (passBlizzard c (setDeprecatedList c (setFlavor c (setVersion c s0)))))))).flavorMap
      = flavorOf c s0.flavorMap := by
    have h := sideData_components
      (docPasses_sideData c (setDeprecatedList c (setFlavor c (setVersion c s0))))
    rw [h.2.2.2.2.1, sideSteps_flavorMap]
  rw [hfm]
  rw [passFrameXml_functions, passWidget_functions, passWiki_functions,
      passes_deprecatedList, sideSteps_deprecatedList,
      passDeprecatedDir_functions, passBlizzard_functions, sideSteps_functions]
  unfold loadScript
  rw [applyFnOps_append, applyFnOps_append, applyFnOps_append, applyFnOps_append]

/-- The function index's key invariant: every stored record's qualified name
equals its key. -/
def keysMatchInv (m : List (String × FuncRec)) : Prop :=
  ∀ p ∈ m, p.2.fullName = p.1

theorem mapSet_keysMatch :
    ∀ (m : List (String × FuncRec)) (k : String) (v : FuncRec),
      keysMatchInv m → v.fullName = k → keysMatchInv (mapSet m k v) := by
  intro m
  induction m with
  | nil =>
    intro k v _ hv p hp
    simp [mapSet] at hp
    subst hp
    exact hv
  | cons q m ih =>
    intro k v hm hv p hp
    rw [show mapSet (q :: m) k v
        = if q.1 == k then (k, v) :: m else q :: mapSet m k v from rfl] at hp
    by_cases hq : q.1 = k
    · simp only [hq, beq_self_eq_true, if_true] at hp
      rcases List.mem_cons.mp hp with hp | hp
      · subst hp
        exact hv
      · exact hm p (List.mem_cons_of_mem _ hp)
    · have hb : (q.1 == k) = false := by simp [hq]
      rw [hb] at hp
      simp only [Bool.false_eq_true, if_false] at hp
      rcases List.mem_cons.mp hp with hp | hp
      · rw [hp]
        exact hm q (List.mem_cons_self _ _)
      · exact ih k v (fun r hr => hm r (List.mem_cons_of_mem _ hr)) hv p hp

theorem applyFnOp_keysMatch (m : List (String × FuncRec)) (op : FnOp)
    (hm : keysMatchInv m) (hop : (fnOpVal op).fullName = fnOpKey op) :
    keysMatchInv (applyFnOp m op) := by
  cases op with
  | write k f => exact mapSet_keysMatch m k f hm hop
  | condWrite k f =>
    show keysMatchInv (if mapHas m k then m else mapSet m k f)
    split
    · exact hm
    · exact mapSet_keysMatch m k f hm hop

theorem applyFnOps_keysMatch (S : List FnOp) :
    ∀ m, keysMatchInv m → (∀ op ∈ S, (fnOpVal op).fullName = fnOpKey op) →
      keysMatchInv (applyFnOps m S) := by
  induction S with
  | nil => intro m hm _; exact hm
  | cons op S ih =>
    intro m hm hS
    rw [applyFnOps_cons]
    exact ih _ (applyFnOp_keysMatch m op hm (hS op (List.mem_cons_self _ _)))
      (fun q hq => hS q (List.mem_cons_of_mem _ hq))

theorem flatten_map_scripts {α : Type _} (P : FnOp → Prop) (script : α → List FnOp)
    (h : ∀ a, ∀ op ∈ script a, P op) :
    ∀ (l : List α), ∀ op ∈ (l.map script).flatten, P op := by
  intro l op hop
  rcases List.mem_flatten.mp hop with ⟨ops, hops, hopin⟩
  rcases List.mem_map.mp hops with ⟨a, _, rfl⟩
  exact h a op hopin

theorem blizzFileScript_wf (file : List String) :
    ∀ op ∈ blizzFileScript file, (fnOpVal op).fullName = fnOpKey op := by
  intro op hop
  rcases List.mem_map.mp hop with ⟨f, _, rfl⟩
  rfl

theorem deprecatedFileScript_wf (pr : String × List String) :
    ∀ op ∈ deprecatedFileScript pr, (fnOpVal op).fullName = fnOpKey op := by
  intro op hop
  rcases List.mem_map.mp hop with ⟨f, _, rfl⟩
  rfl

theorem wikiScript_wf (dl : List String) (c : Corpus) :
    ∀ op ∈ wikiScript dl c, (fnOpVal op).fullName = fnOpKey op := by
  intro op hop
  unfold wikiScript at hop
  cases hw : c.wikiFile with
  | none =>
    rw [hw] at hop
    simp at hop
  | some lines =>
    rw [hw] at hop
    rcases List.mem_map.mp hop with ⟨f, _, rfl⟩
    rfl

theorem widgetFileScript_wf (file : List String) :
    ∀ op ∈ widgetFileScript file, (fnOpVal op).fullName = fnOpKey op := by
  intro op hop
  rcases List.mem_map.mp hop with ⟨f, _, rfl⟩
  rfl

theorem frameXmlFileScript_wf (file : List String) :
    ∀ op ∈ frameXmlFileScript file, (fnOpVal op).fullName = fnOpKey op := by
  intro op hop
  rcases List.mem_map.mp hop with ⟨f, _, rfl⟩
  rfl

theorem loadScript_wf (c : Corpus) (dl : List String) :
    ∀ op ∈ loadScript c dl, (fnOpVal op).fullName = fnOpKey op := by
  intro op hop
  unfold loadScript at hop
  rcases List.mem_append.mp hop with h | hop
  · exact flatten_map_scripts _ blizzFileScript blizzFileScript_wf _ op h
  rcases List.mem_append.mp hop with h | hop
  · exact flatten_map_scripts _ deprecatedFileScript deprecatedFileScript_wf _ op h
  rcases List.mem_append.mp hop with h | hop
  · exact wikiScript_wf dl c op h
  rcases List.mem_append.mp hop with h | h
  · exact flatten_map_scripts _ widgetFileScript widgetFileScript_wf _ op h
  · exact flatten_map_scripts _ frameXmlFileScript frameXmlFileScript_wf _ op h

theorem enrichFunc_fullName (fm : List (String × List String)) (k : String) (f : FuncRec) :
    (enrichFunc fm k f).fullName = f.fullName := by
  unfold enrichFunc
  split
  · rfl
  · split <;> rfl

theorem enrichMap_keysMatch (fm : List (String × List String))
    (m : List (String × FuncRec)) (hm : keysMatchInv m) :
    keysMatchInv (enrichMap fm m) := by
  intro p hp
  unfold enrichMap at hp
  rcases List.mem_map.mp hp with ⟨q, hq, rfl⟩
  show (enrichFunc fm q.1 q.2).fullName = q.1
  rw [enrichFunc_fullName]
  exact hm q hq

theorem load_keysMatch (c : Corpus) : keysMatchInv (load newStore c).functions := by
  rw [load_functions_reify]
  apply enrichMap_keysMatch
  apply applyFnOps_keysMatch
  · intro p hp
    exact absurd hp (List.not_mem_nil p)
  · exact loadScript_wf c _

/-- C1. After a full load from a fresh store, every key of the function index
looked up with exactly that qualified name yields a singleton whose record's
qualified name equals the input (the exact-match branch fires before any
case-insensitive or partial matching). -/
theorem c1_exact_lookup (c : Corpus) (k : String) (f : FuncRec)
    (h : mapGet (load newStore c).functions k = some f) :
    lookupApi (load newStore c) k = [f] ∧ f.fullName = k := by
  refine ⟨?_, load_keysMatch c (k, f) (mapGet_mem _ _ _ h)⟩
  unfold lookupApi
  rw [h]

/-- A one-function corpus for the witnesses. -/
def c1Corpus : Corpus :=
  { pkgVersion := none, flavorFile := none, deprecatedFile := none,
    blizzFiles := [["function A.B() end"]],
    deprecatedDirFiles := [], wikiFile := none, widgetFiles := [], frameXmlFiles := [],
    enumFile := none, eventFile := none, cvarFile := none }

/-- Witness for C1: the loaded one-function corpus answers the exact lookup of
`A.B` with the singleton of its own record. -/
theorem c1_exact_lookup_witness :
    lookupApi (load newStore c1Corpus) "A.B"
        = [{ fullName := "A.B", nspace := some "A", name := "B", args := "",
             isMethod := false, source := some "blizzard" }] ∧
      ({ fullName := "A.B", nspace := some "A", name := "B", args := "",
         isMethod := false, source := some "blizzard" } : FuncRec).fullName = "A.B" :=
  c1_exact_lookup c1Corpus "A.B" _ (by decide)

/-- The namespace table invariant: every record stored under a namespace key
is a non-method whose namespace field equals that key. -/
def nsInv (m : List (String × List FuncRec)) : Prop :=
  ∀ p ∈ m, ∀ f ∈ p.2, f.isMethod = false ∧ f.nspace = some p.1

theorem nsPush_nsInv (m : List (String × List FuncRec)) (ns : String) (f : FuncRec)
    (hm : nsInv m) (hf : f.isMethod = false) (hns : f.nspace = some ns) :
    nsInv (nsPush m ns f) := by
  unfold nsPush
  split
  · intro p hp
    rcases List.mem_map.mp hp with ⟨q, hq, rfl⟩
    cases hb : q.1 == ns with
    | false =>
      simp only [hb, Bool.false_eq_true, if_false]
      exact hm q hq
    | true =>
      simp only [hb, if_true]
      intro g hg
      rcases List.mem_append.mp hg with hg | hg
      · exact hm q hq g hg
      · rw [List.mem_singleton.mp hg]
        have : q.1 = ns := by simpa using hb
        rw [this]
        exact ⟨hf, hns⟩
  · intro p hp
    rcases List.mem_append.mp hp with hp | hp
    · exact hm p hp
    · rw [List.mem_singleton.mp hp]
      intro g hg
      rw [List.mem_singleton.mp hg]
      exact ⟨hf, hns⟩

theorem indexFunction_nsInv (s : DataStore) (f : FuncRec) (src : String)
    (hm : nsInv s.namespaces) : nsInv (indexFunction s f src).namespaces := by
  rcases indexFunction_namespaces s f src with h | ⟨ns, hns, hguard, h⟩
  · rw [h]
    exact hm
  · rw [h]
    rcases Bool.and_eq_true .. |>.mp hguard with ⟨_, hnm⟩
    apply nsPush_nsInv _ _ _ hm
    · show f.isMethod = false
      simpa using hnm
    · show f.nspace = some ns
      exact hns

theorem stepBlizzFile_nsInv (s : DataStore) (file : List String)
    (hm : nsInv s.namespaces) : nsInv (stepBlizzFile s file).namespaces := by
  unfold stepBlizzFile
  apply foldl_pres indexClass (fun s => nsInv s.namespaces)
    (fun s cls hs => by
      show nsInv (indexClass s cls).namespaces
      rw [indexClass_namespaces]
      exact hs)
  exact foldl_pres _ (fun s => nsInv s.namespaces)
    (fun s f hs => indexFunction_nsInv s f "blizzard" hs) _ _ hm

theorem stepDeprecatedFile_nsInv (s : DataStore) (pr : String × List String)
    (hm : nsInv s.namespaces) : nsInv (stepDeprecatedFile s pr).namespaces := by
  unfold stepDeprecatedFile
  exact foldl_pres _ (fun s => nsInv s.namespaces)
    (fun s f hs => indexFunction_nsInv s _ "deprecated" hs) _ _ hm

theorem stepWikiFunc_nsInv (s : DataStore) (f : FuncRec)
    (hm : nsInv s.namespaces) : nsInv (stepWikiFunc s f).namespaces := by
  unfold stepWikiFunc
  split
  · exact hm
  · exact indexFunction_nsInv s _ "wiki" hm

theorem stepWidgetFunc_nsInv (s : DataStore) (f : FuncRec)
    (hm : nsInv s.namespaces) : nsInv (stepWidgetFunc s f).namespaces := by
  unfold stepWidgetFunc
  split
  · exact indexFunction_nsInv s f "widget" hm
  · exact indexFunction_nsInv s f "widget" hm

theorem stepWidgetFile_nsInv (s : DataStore) (file : List String)
    (hm : nsInv s.namespaces) : nsInv (stepWidgetFile s file).namespaces := by
  unfold stepWidgetFile
  apply foldl_pres stepWidgetFunc (fun s => nsInv s.namespaces) stepWidgetFunc_nsInv
  exact foldl_pres indexClass (fun s => nsInv s.namespaces)
    (fun s cls hs => by
      show nsInv (indexClass s cls).namespaces
      rw [indexClass_namespaces]
      exact hs) _ _ hm

theorem stepFrameXmlFile_nsInv (s : DataStore) (file : List String)
    (hm : nsInv s.namespaces) : nsInv (stepFrameXmlFile s file).namespaces := by
  unfold stepFrameXmlFile
  exact foldl_pres
    (fun s f => if mapHas s.functions f.fullName then s else indexFunction s f "framexml")
    (fun s => nsInv s.namespaces)
    (fun s f hs => by
      show nsInv (if mapHas s.functions f.fullName then s
        else indexFunction s f "framexml").namespaces
      split
      · exact hs
      · exact indexFunction_nsInv s f "framexml" hs)
    _ _
    (foldl_pres indexClass (fun s => nsInv s.namespaces)
      (fun s cls hs => by
        show nsInv (indexClass s cls).namespaces
        rw [indexClass_namespaces]
        exact hs) _ _ hm)

theorem setEnums_namespaces (c : Corpus) (s : DataStore) :
    (setEnums c s).namespaces = s.namespaces := by
  unfold setEnums
  cases c.enumFile <;> rfl

theorem setEvents_namespaces (c : Corpus) (s : DataStore) :
    (setEvents c s).namespaces = s.namespaces := by
  unfold setEvents
  cases c.eventFile <;> rfl

theorem setCVars_namespaces (c : Corpus) (s : DataStore) :
    (setCVars c s).namespaces = s.namespaces := by
  unfold setCVars
  cases c.cvarFile <;> rfl

theorem enrichStore_namespaces (s : DataStore) :
    (enrichStore s).namespaces = s.namespaces := rfl

theorem sideSteps_namespaces (c : Corpus) (s0 : DataStore) :
    (setDeprecatedList c (setFlavor c (setVersion c s0))).namespaces = s0.namespaces := by
  unfold setDeprecatedList setFlavor setVersion
  cases c.deprecatedFile <;> cases c.flavorFile <;> rfl

theorem load_nsInv (c : Corpus) : nsInv (load newStore c).namespaces := by
  unfold load
  rw [enrichStore_namespaces, setCVars_namespaces, setEvents_namespaces, setEnums_namespaces]
  apply foldl_pres stepFrameXmlFile (fun s => nsInv s.namespaces) stepFrameXmlFile_nsInv
  apply foldl_pres stepWidgetFile (fun s => nsInv s.namespaces) stepWidgetFile_nsInv
  show nsInv (passWiki c _).namespaces
  unfold passWiki
  have hrest : nsInv (passDeprecatedDir c (passBlizzard c
      (setDeprecatedList c (setFlavor c (setVersion c newStore))))).namespaces := by
    apply foldl_pres stepDeprecatedFile (fun s => nsInv s.namespaces) stepDeprecatedFile_nsInv
    apply foldl_pres stepBlizzFile (fun s => nsInv s.namespaces) stepBlizzFile_nsInv
    rw [sideSteps_namespaces]
    intro p hp
    exact absurd hp (List.not_mem_nil p)
  split
  · exact foldl_pres stepWikiFunc (fun s => nsInv s.namespaces) stepWikiFunc_nsInv _ _ hrest
  · exact hrest

/-- C10. After a full load from a fresh store, every record stored in the
namespace table under key K has method-flag false and namespace K; hence
`getNamespace` never returns a method-flagged record. -/
theorem c10_namespace_table_invariant (c : Corpus) :
    (∀ p ∈ (load newStore c).namespaces, ∀ f ∈ p.2,
        f.isMethod = false ∧ f.nspace = some p.1) ∧
    (∀ (name : String) (f : FuncRec),
        f ∈ getNamespace (load newStore c) name → f.isMethod = false) := by
  have hinv : nsInv (load newStore c).namespaces := load_nsInv c
  refine ⟨hinv, ?_⟩
  intro name f hf
  unfold getNamespace at hf
  rcases hget : mapGet (load newStore c).namespaces name with _ | l
  · rw [hget] at hf
    rcases hfind : (load newStore c).namespaces.find?
        (fun p => jsToLower p.1 == jsToLower name) with _ | p
    · rw [hfind] at hf
      simp at hf
    · rw [hfind] at hf
      exact (hinv p (List.mem_of_find?_eq_some hfind) f hf).1
  · rw [hget] at hf
    exact (hinv (name, l) (mapGet_mem _ _ _ hget) f hf).1

/-- Witness for C10: the function record stored under namespace `A` of the
one-function corpus is method-flag false via `getNamespace`. -/
theorem c10_namespace_table_invariant_witness :
    ({ fullName := "A.B", nspace := some "A", name := "B", args := "",
       isMethod := false, source := some "blizzard" } : FuncRec).isMethod = false :=
  (c10_namespace_table_invariant c1Corpus).2 "A" _ (by decide)

theorem applyFnOps_present_mono (S : List FnOp) :
    ∀ (m : List (String × FuncRec)) (k : String) (v : FuncRec),
      mapGet m k = some v →
      (∀ g, FnOp.write k g ∈ S → False) →
      mapGet (applyFnOps m S) k = some v := by
  induction S with
  | nil => intro m k v h _; exact h
  | cons op S ih =>
    intro m k v h hno
    rw [applyFnOps_cons]
    apply ih _ _ _ _ (fun g hg => hno g (List.mem_cons_of_mem _ hg))
    cases op with
    | write k2 g =>
      by_cases hk : k2 = k
      · subst hk
        exact (hno g (List.mem_cons_self _ _)).elim
      · show mapGet (mapSet m k2 g) k = some v
        rw [mapGet_mapSet_ne _ _ _ _ (fun he => hk he.symm)]
        exact h
    | condWrite k2 g =>
      show mapGet (if mapHas m k2 then m else mapSet m k2 g) k = some v
      split
      · exact h
      · rename_i hhas
        by_cases hk : k2 = k
        · subst hk
          exact absurd (by rw [mapHas, h]; rfl) hhas
        · rw [mapGet_mapSet_ne _ _ _ _ (fun he => hk he.symm)]
          exact h

theorem applyFnOps_lastWrite (S : List FnOp) :
    ∀ (m : List (String × FuncRec)) (k : String) (P : FuncRec → Prop),
      (∃ g, FnOp.write k g ∈ S) →
      (∀ g, FnOp.write k g ∈ S → P g) →
      ∃ v, mapGet (applyFnOps m S) k = some v ∧ P v := by
  induction S with
  | nil =>
    intro m k P hex _
    rcases hex with ⟨g, hg⟩
    exact absurd hg (List.not_mem_nil _)
  | cons op S ih =>
    intro m k P hex hall
    rw [applyFnOps_cons]
    by_cases hrest : ∃ g, FnOp.write k g ∈ S
    · exact ih _ k P hrest (fun g hg => hall g (List.mem_cons_of_mem _ hg))
    · rcases hex with ⟨g, hg⟩
      rcases List.mem_cons.mp hg with heq | hmem
      · refine ⟨g, ?_, hall g hg⟩
        have h1 : mapGet (applyFnOp m op) k = some g := by
          rw [← heq]
          exact mapGet_mapSet_self m k g
        exact applyFnOps_present_mono S _ k g h1 (fun g2 hg2 => hrest ⟨g2, hg2⟩)
      · exact absurd ⟨g, hmem⟩ hrest

theorem enrichMap_mapGet (fm : List (String × List String)) :
    ∀ (m : List (String × FuncRec)) (k : String),
      mapGet (enrichMap fm m) k = (mapGet m k).map (enrichFunc fm k) := by
  intro m
  induction m with
  | nil => intro k; rfl
  | cons p m ih =>
    intro k
    show mapGet ((p.1, enrichFunc fm p.1 p.2) :: enrichMap fm m) k
      = (mapGet (p :: m) k).map (enrichFunc fm k)
    rw [mapGet_cons, mapGet_cons]
    by_cases hp : p.1 = k
    · simp [hp]
    · have hb : (p.1 == k) = false := by simp [hp]
      simp only [hb, Bool.false_eq_true, if_false]
      exact ih k

theorem enrichFunc_deprecated (fm : List (String × List String)) (k : String) (f : FuncRec) :
    (enrichFunc fm k f).deprecated = f.deprecated := by
  unfold enrichFunc
  split
  · rfl
  · split <;> rfl

theorem enrichFunc_deprecatedInPatch (fm : List (String × List String)) (k : String)
    (f : FuncRec) : (enrichFunc fm k f).deprecatedInPatch = f.deprecatedInPatch := by
  unfold enrichFunc
  split
  · rfl
  · split <;> rfl

theorem enrichFunc_source (fm : List (String × List String)) (k : String) (f : FuncRec) :
    (enrichFunc fm k f).source = f.source := by
  unfold enrichFunc
  split
  · rfl
  · split <;> rfl

theorem wiki_no_writes (dl : List String) (c : Corpus) (k : String) (g : FuncRec)
    (h : FnOp.write k g ∈ wikiScript dl c) : False := by
  unfold wikiScript at h
  cases hw : c.wikiFile with
  | none =>
    rw [hw] at h
    simp at h
  | some lines =>
    rw [hw] at h
    rcases List.mem_map.mp h with ⟨f, _, heq⟩
    exact FnOp.noConfusion heq

theorem frameXml_no_writes (c : Corpus) (k : String) (g : FuncRec)
    (h : FnOp.write k g ∈ (c.frameXmlFiles.map frameXmlFileScript).flatten) : False := by
  rcases List.mem_flatten.mp h with ⟨ops, hops, hopin⟩
  rcases List.mem_map.mp hops with ⟨file, _, rfl⟩
  rcases List.mem_map.mp hopin with ⟨f, _, heq⟩
  exact FnOp.noConfusion heq

theorem widget_write_keys (c : Corpus) (k : String) (g : FuncRec)
    (h : FnOp.write k g ∈ (c.widgetFiles.map widgetFileScript).flatten) :
    ∃ file ∈ c.widgetFiles, ∃ f ∈ (parseLuaFile file).functions, f.fullName = k := by
  rcases List.mem_flatten.mp h with ⟨ops, hops, hopin⟩
  rcases List.mem_map.mp hops with ⟨file, hfile, rfl⟩
  rcases List.mem_map.mp hopin with ⟨f, hf, heq⟩
  injection heq with h1 h2
  exact ⟨file, hfile, f, hf, h1⟩

theorem deprecated_write_props (c : Corpus) (F : String) (p : String) (g : FuncRec)
    (hpatch : ∀ pr ∈ c.deprecatedDirFiles,
        (∃ f ∈ (parseLuaFile pr.2).functions, f.fullName = F) →
        extractPatchFromFilename pr.1 = some p)
    (h : FnOp.write F g ∈ (c.deprecatedDirFiles.map deprecatedFileScript).flatten) :
    g.deprecated = true ∧ g.deprecatedInPatch = some p ∧ g.source = some "deprecated" := by
  rcases List.mem_flatten.mp h with ⟨ops, hops, hopin⟩
  rcases List.mem_map.mp hops with ⟨pr, hpr, rfl⟩
  rcases List.mem_map.mp hopin with ⟨f, hf, heq⟩
  injection heq with h1 h2
  have hp := hpatch pr hpr ⟨f, hf, h1⟩
  rw [← h2]
  refine ⟨rfl, ?_, rfl⟩
  show extractPatchFromFilename pr.1 = some p
  exact hp

theorem deprecated_write_exists (c : Corpus) (F : String)
    (hd : ∃ pr ∈ c.deprecatedDirFiles, ∃ f ∈ (parseLuaFile pr.2).functions, f.fullName = F) :
    ∃ g, FnOp.write F g ∈ (c.deprecatedDirFiles.map deprecatedFileScript).flatten := by
  rcases hd with ⟨pr, hpr, f, hf, hF⟩
  refine ⟨indexedCopy
    { f with deprecatedInPatch := extractPatchFromFilename pr.1, deprecated := true }
    "deprecated", ?_⟩
  apply List.mem_flatten.mpr
  refine ⟨deprecatedFileScript pr, List.mem_map_of_mem _ hpr, ?_⟩
  unfold deprecatedFileScript
  rw [← hF]
  exact List.mem_map_of_mem _ hf

/-- C2. A qualified name indexed by both the primary pass and the deprecated
pass (every deprecated file carrying it yielding patch p, and the widget pass
not carrying it) ends, after the full load, with an indexed record that is
deprecated, stamped with patch p and owned by the deprecated pass — the
deprecated pass's record overwrites the primary pass's. -/
theorem c2_deprecated_pass_overrides (c : Corpus) (F : String) (p : String)
    (hb : ∃ file ∈ c.blizzFiles, ∃ f ∈ (parseLuaFile file).functions, f.fullName = F)
    (hd : ∃ pr ∈ c.deprecatedDirFiles, ∃ f ∈ (parseLuaFile pr.2).functions, f.fullName = F)
    (hpatch : ∀ pr ∈ c.deprecatedDirFiles,
        (∃ f ∈ (parseLuaFile pr.2).functions, f.fullName = F) →
        extractPatchFromFilename pr.1 = some p)
    (hw : ∀ file ∈ c.widgetFiles, ∀ f ∈ (parseLuaFile file).functions, f.fullName ≠ F) :
    ∃ g, mapGet (load newStore c).functions F = some g ∧
      g.deprecated = true ∧ g.deprecatedInPatch = some p ∧
      g.source = some "deprecated" := by
  rw [load_functions_reify]
  unfold loadScript
  rw [applyFnOps_append]
  have hlast := applyFnOps_lastWrite
    ((c.deprecatedDirFiles.map deprecatedFileScript).flatten ++
      (wikiScript (dlOf c newStore.deprecatedList) c ++
        ((c.widgetFiles.map widgetFileScript).flatten ++
          (c.frameXmlFiles.map frameXmlFileScript).flatten)))
    (applyFnOps newStore.functions (c.blizzFiles.map blizzFileScript).flatten) F
    (fun v => v.deprecated = true ∧ v.deprecatedInPatch = some p ∧
      v.source = some "deprecated")
    (by
      rcases deprecated_write_exists c F hd with ⟨g, hg⟩
      exact ⟨g, List.mem_append_left _ hg⟩)
    (by
      intro g hg
      rcases List.mem_append.mp hg with hg | hg
      · exact deprecated_write_props c F p g hpatch hg
      rcases List.mem_append.mp hg with hg | hg
      · exact (wiki_no_writes _ c F g hg).elim
      rcases List.mem_append.mp hg with hg | hg
      · rcases widget_write_keys c F g hg with ⟨file, hfile, f, hf, hF⟩
        exact absurd hF (hw file hfile f hf)
      · exact (frameXml_no_writes c F g hg).elim)
  rcases hlast with ⟨v, hv, hP⟩
  refine ⟨enrichFunc (flavorOf c newStore.flavorMap) F v, ?_, ?_, ?_, ?_⟩
  · rw [enrichMap_mapGet, hv]
    rfl
  · rw [enrichFunc_deprecated]
    exact hP.1
  · rw [enrichFunc_deprecatedInPatch]
    exact hP.2.1
  · rw [enrichFunc_source]
    exact hP.2.2

/-- A corpus where `A.B` is documented by the primary pass and re-indexed by a
deprecated file named with patch 1.2.3. -/
def c2Corpus : Corpus :=
  { pkgVersion := none, flavorFile := none, deprecatedFile := none,
    blizzFiles := [["function A.B() end"]],
    deprecatedDirFiles := [("Deprecated_1_2_3.lua", ["function A.B() end"])],
    wikiFile := none, widgetFiles := [], frameXmlFiles := [],
    enumFile := none, eventFile := none, cvarFile := none }

/-- Witness for C2: on the two-pass corpus the loaded record of `A.B` is
deprecated with patch 1.2.3 and deprecated-pass provenance. -/
theorem c2_deprecated_pass_overrides_witness :
    ∃ g, mapGet (load newStore c2Corpus).functions "A.B" = some g ∧
      g.deprecated = true ∧ g.deprecatedInPatch = some "1.2.3" ∧
      g.source = some "deprecated" :=
  c2_deprecated_pass_overrides c2Corpus "A.B" "1.2.3"
    (by decide) (by decide) (by decide) (by decide)

/-- C9 counterexample: running the full load twice on the same store does not
reproduce the single-load index — the namespace table receives a duplicate
entry for the one indexed function, observable through `getNamespace`. -/
theorem c9_double_load_duplicates_namespaces :
    (getNamespace (load (load newStore c1Corpus) c1Corpus) "A").length = 2 ∧
    (getNamespace (load newStore c1Corpus) "A").length = 1 := by
  constructor
  · rfl
  · rfl

/-- The enum table in force after the enum step, as a function of the prior
store's. -/
def enumsOf (c : Corpus) (prior : List (String × List (String × Nat))) :
    List (String × List (String × Nat)) :=
  match c.enumFile with
  | some lines => parseEnumFile lines
  | none => prior

/-- The event table after the event step. -/
def eventsOf (c : Corpus) (prior : List (String × EventRec)) : List (String × EventRec) :=
  match c.eventFile with
  | some lines => parseEventFile lines
  | none => prior

/-- The CVar list after the CVar step. -/
def cvarsOf (c : Corpus) (prior : List String) : List String :=
  match c.cvarFile with
  | some lines => parseCVarFile lines
  | none => prior

theorem enrichStore_sideData (s : DataStore) : sideData (enrichStore s) = sideData s := rfl

theorem lastSteps_sideData (c : Corpus) (X : DataStore) :
    sideData (setCVars c (setEvents c (setEnums c X)))
      = (enumsOf c X.enums, eventsOf c X.events, cvarsOf c X.cvars,
         X.deprecatedList, X.flavorMap, X.extensionVersion) := by
  unfold setCVars setEvents setEnums enumsOf eventsOf cvarsOf sideData
  cases c.enumFile <;> cases c.eventFile <;> cases c.cvarFile <;> rfl

theorem sideSteps_sideData (c : Corpus) (s : DataStore) :
    sideData (setDeprecatedList c (setFlavor c (setVersion c s)))
      = (s.enums, s.events, s.cvars, dlOf c s.deprecatedList,
         flavorOf c s.flavorMap, some (c.pkgVersion.getD "unknown")) := by
  unfold setDeprecatedList setFlavor setVersion dlOf flavorOf sideData
  cases c.deprecatedFile <;> cases c.flavorFile <;> rfl

/-- All side components of the loaded store, as functions of the corpus and
the starting store. -/
theorem load_sideData (c : Corpus) (s : DataStore) :
    sideData (load s c)
      = (enumsOf c s.enums, eventsOf c s.events, cvarsOf c s.cvars,
         dlOf c s.deprecatedList, flavorOf c s.flavorMap,
         some (c.pkgVersion.getD "unknown")) := by
  unfold load
  rw [enrichStore_sideData, lastSteps_sideData]
  have h := sideData_components (docPasses_sideData c
    (setDeprecatedList c (setFlavor c (setVersion c s))))
  rw [h.1, h.2.1, h.2.2.1, h.2.2.2.1, h.2.2.2.2.1, h.2.2.2.2.2]
  have h2 := sideSteps_sideData c s
  unfold sideData at h2
  simp only [Prod.mk.injEq] at h2
  rw [h2.1, h2.2.1, h2.2.2.1, h2.2.2.2.1, h2.2.2.2.2.1, h2.2.2.2.2.2]

theorem enumsOf_idem (c : Corpus) (x : List (String × List (String × Nat))) :
    enumsOf c (enumsOf c x) = enumsOf c x := by
  unfold enumsOf
  cases c.enumFile <;> rfl

theorem eventsOf_idem (c : Corpus) (x : List (String × EventRec)) :
    eventsOf c (eventsOf c x) = eventsOf c x := by
  unfold eventsOf
  cases c.eventFile <;> rfl

theorem cvarsOf_idem (c : Corpus) (x : List String) :
    cvarsOf c (cvarsOf c x) = cvarsOf c x := by
  unfold cvarsOf
  cases c.cvarFile <;> rfl

theorem flavorOf_idem (c : Corpus) (x : List (String × List String)) :
    flavorOf c (flavorOf c x) = flavorOf c x := by
  unfold flavorOf
  cases c.flavorFile <;> rfl

theorem setAdd_mem_mono (l : List String) (x y : String) (h : y ∈ l) : y ∈ setAdd l x := by
  unfold setAdd
  split
  · exact h
  · exact List.mem_append_left _ h

theorem foldl_setAdd_mem_mono (L : List String) :
    ∀ (m : List String) (y : String), y ∈ m → y ∈ L.foldl setAdd m := by
  induction L with
  | nil => intro m y h; exact h
  | cons x L ih =>
    intro m y h
    rw [List.foldl_cons]
    exact ih _ y (setAdd_mem_mono m x y h)

theorem foldl_setAdd_mem (L : List String) :
    ∀ (m : List String) (y : String), y ∈ L → y ∈ L.foldl setAdd m := by
  induction L with
  | nil => intro m y h; exact absurd h (List.not_mem_nil y)
  | cons x L ih =>
    intro m y h
    rw [List.foldl_cons]
    rcases List.mem_cons.mp h with h | h
    · subst h
      apply foldl_setAdd_mem_mono
      unfold setAdd
      split
      · rename_i hc
        exact List.elem_iff.mp hc
      · exact List.mem_append_right _ (List.mem_singleton.mpr rfl)
    · exact ih _ y h

theorem foldl_setAdd_absorb (L : List String) :
    ∀ (m : List String), (∀ y ∈ L, y ∈ m) → L.foldl setAdd m = m := by
  induction L with
  | nil => intro m _; rfl
  | cons x L ih =>
    intro m h
    rw [List.foldl_cons]
    have hx : setAdd m x = m := by
      unfold setAdd
      rw [if_pos (List.elem_iff.mpr (h x (List.mem_cons_self _ _)))]
    rw [hx]
    exact ih m (fun y hy => h y (List.mem_cons_of_mem _ hy))

theorem dlOf_idem (c : Corpus) (x : List String) : dlOf c (dlOf c x) = dlOf c x := by
  unfold dlOf
  cases c.deprecatedFile with
  | none => rfl
  | some content =>
    exact foldl_setAdd_absorb _ _ (fun y hy => foldl_setAdd_mem _ _ y hy)

/-- Key-uniqueness of an association list, true of every table the store
builds. -/
def noDupKeys (m : List (String × FuncRec)) : Prop :=
  (m.map Prod.fst).Nodup

/-- Overlay of a second run's writes on the fully loaded base index: each base
entry is replaced by the overlay's binding when one exists. -/
def mergeMap (base u : List (String × FuncRec)) : List (String × FuncRec) :=
  base.map (fun p =>
    match mapGet u p.1 with
    | some v => (p.1, v)
    | none => p)

theorem mapSet_cons {β : Type} (q : String × β) (rest : List (String × β)) (k : String)
    (f : β) :
    mapSet (q :: rest) k f = if q.1 == k then (k, f) :: rest else q :: mapSet rest k f := rfl

theorem mergeMap_nil : ∀ base : List (String × FuncRec), mergeMap base [] = base := by
  intro base
  induction base with
  | nil => rfl
  | cons b base ih =>
    show (match mapGet ([] : List (String × FuncRec)) b.1 with
      | some v => (b.1, v)
      | none => b) :: mergeMap base [] = b :: base
    rw [ih]
    rfl

theorem mergeMap_congr (u u2 : List (String × FuncRec)) (base : List (String × FuncRec))
    (h : ∀ p ∈ base, mapGet u p.1 = mapGet u2 p.1) : mergeMap base u = mergeMap base u2 := by
  unfold mergeMap
  apply List.map_congr_left
  intro p hp
  rw [h p hp]

theorem mapGet_mergeMap (u : List (String × FuncRec)) :
    ∀ (base : List (String × FuncRec)) (k : String),
      mapGet (mergeMap base u) k
        = (mapGet base k).map (fun v => ((mapGet u k).getD v)) := by
  intro base
  induction base with
  | nil => intro k; rfl
  | cons b base ih =>
    intro k
    show mapGet ((match mapGet u b.1 with
        | some v => (b.1, v)
        | none => b) :: mergeMap base u) k = _
    rw [mapGet_cons, mapGet_cons]
    have hk1 : (match mapGet u b.1 with
        | some v => (b.1, v)
        | none => b).1 = b.1 := by
      cases mapGet u b.1 <;> rfl
    rw [hk1]
    by_cases hb : b.1 = k
    · subst hb
      simp only [beq_self_eq_true, if_true]
      cases mapGet u b.1 <;> rfl
    · have hbf : (b.1 == k) = false := by simp [hb]
      rw [hbf]
      simp only [Bool.false_eq_true, if_false]
      exact ih k

theorem mapHas_mergeMap (base u : List (String × FuncRec)) (k : String) :
    mapHas (mergeMap base u) k = mapHas base k := by
  unfold mapHas
  rw [mapGet_mergeMap]
  cases mapGet base k <;> rfl

theorem mapHas_mapSet (m : List (String × FuncRec)) (k x : String) (v : FuncRec) :
    mapHas (mapSet m k v) x = (mapHas m x || x == k) := by
  by_cases hx : x = k
  · subst hx
    rw [mapHas, mapGet_mapSet_self]
    simp
  · rw [mapHas, mapGet_mapSet_ne _ _ _ _ hx, ← mapHas]
    have : (x == k) = false := by simp [hx]
    rw [this, Bool.or_false]

theorem mapHas_iff_mem_keys (m : List (String × FuncRec)) (x : String) :
    mapHas m x = true ↔ x ∈ m.map Prod.fst := by
  induction m with
  | nil => simp [mapHas, mapGet]
  | cons p m ih =>
    rw [mapHas, mapGet_cons]
    by_cases hp : p.1 = x
    · simp [hp]
    · have hb : (p.1 == x) = false := by simp [hp]
      rw [hb]
      simp only [Bool.false_eq_true, if_false, List.map_cons, List.mem_cons]
      rw [← mapHas, ih]
      have : ¬ x = p.1 := fun he => hp he.symm
      simp [this]

theorem noDupKeys_mapSet (k : String) (v : FuncRec) :
    ∀ m, noDupKeys m → noDupKeys (mapSet m k v) := by
  intro m
  induction m with
  | nil =>
    intro _
    simp [mapSet, noDupKeys]
  | cons p m ih =>
    intro hm
    unfold noDupKeys at hm ⊢
    rw [List.map_cons, List.nodup_cons] at hm
    by_cases hp : p.1 = k
    · have he : mapSet (p :: m) k v = (k, v) :: m := by
        show (if p.1 == k then (k, v) :: m else p :: mapSet m k v) = _
        rw [if_pos (by simp [hp])]
      rw [he, List.map_cons, List.nodup_cons]
      exact ⟨by rw [← hp]; exact hm.1, hm.2⟩
    · have he : mapSet (p :: m) k v = p :: mapSet m k v := by
        show (if p.1 == k then (k, v) :: m else p :: mapSet m k v) = _
        rw [if_neg (by simp [hp])]
      rw [he, List.map_cons, List.nodup_cons]
      refine ⟨?_, ih hm.2⟩
      intro hmem
      rcases (mapHas_iff_mem_keys _ _).mpr hmem with h2
      rw [mapHas_mapSet] at h2
      rcases Bool.or_eq_true .. |>.mp h2 with h2 | h2
      · exact hm.1 ((mapHas_iff_mem_keys _ _).mp h2)
      · exact hp (by simpa using h2)

theorem noDupKeys_applyFnOp (m : List (String × FuncRec)) (op : FnOp)
    (h : noDupKeys m) : noDupKeys (applyFnOp m op) := by
  cases op with
  | write k f => exact noDupKeys_mapSet k f m h
  | condWrite k f =>
    show noDupKeys (if mapHas m k then m else mapSet m k f)
    split
    · exact h
    · exact noDupKeys_mapSet k f m h

theorem noDupKeys_applyFnOps (S : List FnOp) :
    ∀ m, noDupKeys m → noDupKeys (applyFnOps m S) := by
  induction S with
  | nil => intro m h; exact h
  | cons op S ih =>
    intro m h
    rw [applyFnOps_cons]
    exact ih _ (noDupKeys_applyFnOp m op h)

theorem mapGet_of_nodup_mem :
    ∀ m : List (String × FuncRec), noDupKeys m → ∀ p ∈ m, mapGet m p.1 = some p.2 := by
  intro m
  induction m with
  | nil => intro _ p hp; exact absurd hp (List.not_mem_nil p)
  | cons q m ih =>
    intro hm p hp
    unfold noDupKeys at hm
    rw [List.map_cons, List.nodup_cons] at hm
    rw [mapGet_cons]
    rcases List.mem_cons.mp hp with h | h
    · subst h
      simp
    · by_cases hq : q.1 = p.1
      · exact absurd (hq ▸ List.mem_map_of_mem Prod.fst h) hm.1
      · have hb : (q.1 == p.1) = false := by simp [hq]
        rw [hb]
        simp only [Bool.false_eq_true, if_false]
        exact ih hm.2 p h

theorem mergeMap_set (u : List (String × FuncRec)) (k : String) (f : FuncRec) :
    ∀ base, noDupKeys base → mapHas base k = true →
      mapSet (mergeMap base u) k f = mergeMap base (mapSet u k f) := by
  intro base
  induction base with
  | nil =>
    intro _ hk
    simp [mapHas, mapGet] at hk
  | cons b base ih =>
    intro hnd hk
    unfold noDupKeys at hnd
    rw [List.map_cons, List.nodup_cons] at hnd
    show mapSet ((match mapGet u b.1 with
        | some v => (b.1, v)
        | none => b) :: mergeMap base u) k f
      = (match mapGet (mapSet u k f) b.1 with
        | some v => (b.1, v)
        | none => b) :: mergeMap base (mapSet u k f)
    have hk1 : (match mapGet u b.1 with
        | some v => (b.1, v)
        | none => b).1 = b.1 := by
      cases mapGet u b.1 <;> rfl
    rw [mapSet_cons, hk1]
    by_cases hb : b.1 = k
    · rw [if_pos (by simp [hb])]
      have hhead : (match mapGet (mapSet u k f) b.1 with
          | some v => (b.1, v)
          | none => b) = (k, f) := by
        rw [hb, mapGet_mapSet_self]
      rw [hhead]
      congr 1
      apply mergeMap_congr
      intro p hp
      have hpk : p.1 ≠ k := by
        intro he
        apply hnd.1
        rw [hb, ← he]
        exact List.mem_map_of_mem Prod.fst hp
      rw [mapGet_mapSet_ne _ _ _ _ hpk]
    · rw [if_neg (by simp [hb])]
      congr 1
      · rw [mapGet_mapSet_ne _ _ _ _ hb]
      · apply ih hnd.2
        rw [mapHas, mapGet_cons] at hk
        have hbf : (b.1 == k) = false := by simp [hb]
        rw [hbf] at hk
        simp only [Bool.false_eq_true, if_false] at hk
        exact hk

theorem applyFnOp_has_mono (m : List (String × FuncRec)) (op : FnOp) (k : String)
    (h : mapHas m k = true) : mapHas (applyFnOp m op) k = true := by
  cases op with
  | write k2 f =>
    show mapHas (mapSet m k2 f) k = true
    rw [mapHas_mapSet, h]
    rfl
  | condWrite k2 f =>
    show mapHas (if mapHas m k2 then m else mapSet m k2 f) k = true
    split
    · exact h
    · rw [mapHas_mapSet, h]
      rfl

theorem applyFnOps_has_mono (S : List FnOp) :
    ∀ m k, mapHas m k = true → mapHas (applyFnOps m S) k = true := by
  induction S with
  | nil => intro m k h; exact h
  | cons op S ih =>
    intro m k h
    rw [applyFnOps_cons]
    exact ih _ k (applyFnOp_has_mono m op k h)

theorem applyFnOp_self_present (m : List (String × FuncRec)) (op : FnOp) :
    mapHas (applyFnOp m op) (fnOpKey op) = true := by
  cases op with
  | write k f =>
    show mapHas (mapSet m k f) k = true
    rw [mapHas, mapGet_mapSet_self]
    rfl
  | condWrite k f =>
    show mapHas (if mapHas m k then m else mapSet m k f) k = true
    split
    · rename_i h
      exact h
    · rw [mapHas, mapGet_mapSet_self]
      rfl

theorem applyFnOps_opKeys_present (S : List FnOp) :
    ∀ m, ∀ op ∈ S, mapHas (applyFnOps m S) (fnOpKey op) = true := by
  induction S with
  | nil => intro m op h; exact absurd h (List.not_mem_nil op)
  | cons op2 S ih =>
    intro m op h
    rw [applyFnOps_cons]
    rcases List.mem_cons.mp h with heq | hmem
    · subst heq
      exact applyFnOps_has_mono S _ _ (applyFnOp_self_present m op)
    · exact ih _ op hmem

theorem mapHas_enrichMap (fm : List (String × List String)) (m : List (String × FuncRec))
    (k : String) : mapHas (enrichMap fm m) k = mapHas m k := by
  unfold mapHas
  rw [enrichMap_mapGet]
  cases mapGet m k <;> rfl

theorem noDupKeys_enrichMap (fm : List (String × List String)) (m : List (String × FuncRec))
    (h : noDupKeys m) : noDupKeys (enrichMap fm m) := by
  unfold noDupKeys enrichMap at *
  rw [List.map_map]
  have heq : m.map (Prod.fst ∘ fun p => (p.1, enrichFunc fm p.1 p.2)) = m.map Prod.fst :=
    List.map_congr_left (fun p _ => rfl)
  rw [heq]
  exact h

/-- The overlay simulation: running a script over the merged view of a fully
written base tracks running it from the bare starting index. -/
theorem applyFnOps_merge (S : List FnOp) :
    ∀ (base u m1 : List (String × FuncRec)),
      noDupKeys base →
      (∀ k v, mapGet u k = some v → mapGet m1 k = some v) →
      (∀ k, mapHas m1 k = true → mapHas base k = true) →
      (∀ op ∈ S, mapHas base (fnOpKey op) = true) →
      ∃ u2, applyFnOps (mergeMap base u) S = mergeMap base u2 ∧
        (∀ k v, mapGet u2 k = some v → mapGet (applyFnOps m1 S) k = some v) ∧
        (∀ k, mapHas (applyFnOps m1 S) k = true → mapHas base k = true) := by
  induction S with
  | nil =>
    intro base u m1 _ h1 h2 _
    exact ⟨u, rfl, h1, h2⟩
  | cons op S ih =>
    intro base u m1 hnd h1 h2 hkeys
    rw [applyFnOps_cons, applyFnOps_cons]
    cases op with
    | write k f =>
      have hbk : mapHas base k = true := hkeys _ (List.mem_cons_self _ _)
      have hmerge : applyFnOp (mergeMap base u) (FnOp.write k f)
          = mergeMap base (mapSet u k f) := by
        show mapSet (mergeMap base u) k f = _
        exact mergeMap_set u k f base hnd hbk
      rw [hmerge]
      apply ih base (mapSet u k f) (mapSet m1 k f) hnd
      · intro k2 v hv
        by_cases hk2 : k2 = k
        · subst hk2
          rw [mapGet_mapSet_self] at hv
          rw [mapGet_mapSet_self]
          exact hv
        · rw [mapGet_mapSet_ne _ _ _ _ hk2] at hv
          rw [mapGet_mapSet_ne _ _ _ _ hk2]
          exact h1 k2 v hv
      · intro k2 hk2
        by_cases he : k2 = k
        · subst he
          exact hbk
        · rw [mapHas, mapGet_mapSet_ne _ _ _ _ he, ← mapHas] at hk2
          exact h2 k2 hk2
      · exact fun op2 h => hkeys op2 (List.mem_cons_of_mem _ h)
    | condWrite k f =>
      have hbk : mapHas base k = true := hkeys _ (List.mem_cons_self _ _)
      have hskip : applyFnOp (mergeMap base u) (FnOp.condWrite k f) = mergeMap base u := by
        show (if mapHas (mergeMap base u) k then mergeMap base u else _) = _
        rw [mapHas_mergeMap, hbk]
        simp
      rw [hskip]
      by_cases hm1 : mapHas m1 k = true
      · have hsk2 : applyFnOp m1 (FnOp.condWrite k f) = m1 := by
          show (if mapHas m1 k then m1 else _) = m1
          rw [hm1]
          simp
        rw [hsk2]
        exact ih base u m1 hnd h1 h2 (fun op2 h => hkeys op2 (List.mem_cons_of_mem _ h))
      · have hw2 : applyFnOp m1 (FnOp.condWrite k f) = mapSet m1 k f := by
          show (if mapHas m1 k then m1 else _) = _
          rw [Bool.eq_false_iff.mpr hm1]
          simp
        rw [hw2]
        apply ih base u (mapSet m1 k f) hnd
        · intro k2 v hv
          by_cases he : k2 = k
          · subst he
            exact absurd (by rw [mapHas, h1 k2 v hv]; rfl) hm1
          · rw [mapGet_mapSet_ne _ _ _ _ he]
            exact h1 k2 v hv
        · intro k2 hk2
          by_cases he : k2 = k
          · subst he
            exact hbk
          · rw [mapHas, mapGet_mapSet_ne _ _ _ _ he, ← mapHas] at hk2
            exact h2 k2 hk2
        · exact fun op2 h => hkeys op2 (List.mem_cons_of_mem _ h)

/-- The version-tag list an enrichment leaves on a record. -/
def enrichedGVal (fm : List (String × List String)) (k : String) (f : FuncRec) :
    List String :=
  match mapGet fm (if f.name == "" then k else f.name) with
  | some vs => vs
  | none =>
    match mapGet fm k with
    | some vs => vs
    | none => f.gameVersions

theorem enrichFunc_eq (fm : List (String × List String)) (k : String) (f : FuncRec) :
    enrichFunc fm k f = { f with gameVersions := enrichedGVal fm k f } := by
  unfold enrichFunc enrichedGVal
  split
  · rfl
  · split <;> rfl

theorem enrichedGVal_update (fm : List (String × List String)) (k : String) (f : FuncRec)
    (X : List String) :
    enrichedGVal fm k { f with gameVersions := X }
      = match mapGet fm (if f.name == "" then k else f.name) with
        | some vs => vs
        | none =>
          match mapGet fm k with
          | some vs => vs
          | none => X := rfl

theorem enrichedGVal_self_absorb (fm : List (String × List String)) (k : String)
    (f : FuncRec) :
    enrichedGVal fm k { f with gameVersions := enrichedGVal fm k f }
      = enrichedGVal fm k f := by
  rw [enrichedGVal_update]
  unfold enrichedGVal
  cases hq : mapGet fm (if f.name == "" then k else f.name) with
  | some vs => rfl
  | none =>
    cases mapGet fm k with
    | some vs => rfl
    | none => rfl

theorem enrichFunc_idem (fm : List (String × List String)) (k : String) (f : FuncRec) :
    enrichFunc fm k (enrichFunc fm k f) = enrichFunc fm k f := by
  rw [enrichFunc_eq fm k f,
      enrichFunc_eq fm k ({ f with gameVersions := enrichedGVal fm k f })]
  show ({ f with
      gameVersions := enrichedGVal fm k { f with gameVersions := enrichedGVal fm k f } }
        : FuncRec)
    = { f with gameVersions := enrichedGVal fm k f }
  rw [enrichedGVal_self_absorb]

/-- Re-enriching the merged view of the enriched base under the original
(un-enriched) run's values collapses back to the enriched base. -/
theorem enrich_merge_collapse (fm : List (String × List String))
    (A u2 : List (String × FuncRec)) (hnd : noDupKeys A)
    (hagree : ∀ k v, mapGet u2 k = some v → mapGet A k = some v) :
    enrichMap fm (mergeMap (enrichMap fm A) u2) = enrichMap fm A := by
  unfold enrichMap mergeMap
  rw [List.map_map, List.map_map]
  apply List.map_congr_left
  intro p hp
  show (fun q : String × FuncRec => (q.1, enrichFunc fm q.1 q.2))
      (match mapGet u2 (p.1, enrichFunc fm p.1 p.2).1 with
        | some v => ((p.1, enrichFunc fm p.1 p.2).1, v)
        | none => (p.1, enrichFunc fm p.1 p.2))
    = (p.1, enrichFunc fm p.1 p.2)
  cases hu : mapGet u2 (p.1, enrichFunc fm p.1 p.2).1 with
  | none =>
    show (p.1, enrichFunc fm p.1 (enrichFunc fm p.1 p.2)) = (p.1, enrichFunc fm p.1 p.2)
    rw [enrichFunc_idem]
  | some w =>
    have hA : mapGet A p.1 = some w := hagree _ _ hu
    have hv : mapGet A p.1 = some p.2 := mapGet_of_nodup_mem A hnd p hp
    rw [hv] at hA
    have hw : w = p.2 := (Option.some.injEq _ _ ▸ hA).symm
    show (p.1, enrichFunc fm p.1 w) = (p.1, enrichFunc fm p.1 p.2)
    rw [hw]

/-- Running the same script a second time over its own enriched result leaves
the enriched index unchanged. -/
theorem applyFnOps_idem_after_enrich (fm : List (String × List String)) (S : List FnOp) :
    enrichMap fm (applyFnOps (enrichMap fm (applyFnOps [] S)) S)
      = enrichMap fm (applyFnOps [] S) := by
  have hndA : noDupKeys (applyFnOps [] S) :=
    noDupKeys_applyFnOps S [] (by simp [noDupKeys])
  have hnd : noDupKeys (enrichMap fm (applyFnOps [] S)) :=
    noDupKeys_enrichMap fm _ hndA
  have hkeys : ∀ op ∈ S, mapHas (enrichMap fm (applyFnOps [] S)) (fnOpKey op) = true := by
    intro op h
    rw [mapHas_enrichMap]
    exact applyFnOps_opKeys_present S [] op h
  obtain ⟨u2, happ, hagree, _⟩ := applyFnOps_merge S (enrichMap fm (applyFnOps [] S)) [] []
    hnd (by intro k v h; simp [mapGet] at h) (by intro k h; simp [mapHas, mapGet] at h) hkeys
  rw [mergeMap_nil] at happ
  rw [happ]
  exact enrich_merge_collapse fm _ u2 hndA hagree

theorem load_functions_idem (c : Corpus) :
    (load (load newStore c) c).functions = (load newStore c).functions := by
  have h1 := load_sideData c newStore
  unfold sideData at h1
  simp only [Prod.mk.injEq] at h1
  rw [load_functions_reify c (load newStore c)]
  rw [h1.2.2.2.1, h1.2.2.2.2.1]
  rw [dlOf_idem, flavorOf_idem]
  rw [load_functions_reify c newStore]
  exact applyFnOps_idem_after_enrich _ _

/-- C9 amended. Running the full load twice against an unchanged corpus
reproduces the single load's function index, enum, event and CVar tables,
deprecated-name list, flavor map and extension version in every observable
field; it does not fully replace the namespace and widget tables, whose
per-key lists accumulate duplicate entries — full replacement holds only for
a load into a freshly constructed store. -/
theorem c9_double_load_amended (c : Corpus) :
    (load (load newStore c) c).functions = (load newStore c).functions ∧
    (load (load newStore c) c).enums = (load newStore c).enums ∧
    (load (load newStore c) c).events = (load newStore c).events ∧
    (load (load newStore c) c).cvars = (load newStore c).cvars ∧
    (load (load newStore c) c).deprecatedList = (load newStore c).deprecatedList ∧
    (load (load newStore c) c).flavorMap = (load newStore c).flavorMap ∧
    (load (load newStore c) c).extensionVersion = (load newStore c).extensionVersion := by
  have h1 := load_sideData c newStore
  have h2 := load_sideData c (load newStore c)
  unfold sideData at h1 h2
  simp only [Prod.mk.injEq] at h1 h2
  refine ⟨load_functions_idem c, ?_, ?_, ?_, ?_, ?_, ?_⟩
  · rw [h2.1, h1.1, enumsOf_idem]
  · rw [h2.2.1, h1.2.1, eventsOf_idem]
  · rw [h2.2.2.1, h1.2.2.1, cvarsOf_idem]
  · rw [h2.2.2.2.1, h1.2.2.2.1, dlOf_idem]
  · rw [h2.2.2.2.2.1, h1.2.2.2.2.1, flavorOf_idem]
  · rw [h2.2.2.2.2.2, h1.2.2.2.2.2]
